import Mathlib

/-!
Verification of the Minsky "locator" Turing-machine simulator
(`minsky_locator.py`).

The Python program keeps the tape as a Python list of one-character
strings (`list(parse_string)`), a cursor `pointer : Nat`, and a current
state drawn from six singleton state objects `L1, L2, R1, R2, R3, R4`
(classes `Left1 .. Right4`).  We embed the tape as `List String` whose
elements are one-character strings, the per-state transition dictionary
`read_write_next` as the function `rwn`, and the driving loops
(`State.read`, `Locator.process`) as fuel-indexed functions `readF`,
`runF`.  The fuel for the inner read loop is `tape.length + 1`, which is
always enough to find the first accepted symbol in the scanned direction
when one exists; when none exists the Python loop runs forever and
`readF` returns `none` at every fuel (proved below).
-/

/-- The six machine states of the locator. -/
inductive StName where
  | L1 | L2 | R1 | R2 | R3 | R4
deriving DecidableEq, Repr

/-- Python class names of the six states; `State.shift` dispatches on the
first letter of this name. -/
def className : StName → String
  | .L1 => "Left1"
  | .L2 => "Left2"
  | .R1 => "Right1"
  | .R2 => "Right2"
  | .R3 => "Right3"
  | .R4 => "Right4"

/-- The `next` component of a transition: either a state object or one of
the terminal verdict strings (`"Copy"` / `"Halt"`). -/
inductive NxtV where
  | st (s : StName)
  | vd (v : String)
deriving DecidableEq, Repr

/-- The `read_write_next` dictionary of each state: for an accepted symbol
it returns `(write, next)`; for any other symbol the lookup is `none`
(the Python read loop only stops on symbols in the dictionary).
`write = none` is the Python `None` ("no write" and, in the `next`
position, "stay in this state"). -/
def rwn : StName → String → Option (Option String × Option NxtV)
  | .L1, s =>
      if s = "0" then some (some "A", none)
      else if s = "1" then some (some "B", none)
      else if s = "Y" then some (none, some (.st .R1))
      else none
  | .L2, s =>
      if s = "Y" then some (none, some (.st .R1))
      else none
  | .R1, s =>
      if s = "A" then some (some "0", some (.st .R2))
      else if s = "B" then some (some "1", some (.st .R3))
      else if s = "X" then some (some "Copy", some (.vd "Copy"))
      else none
  | .R2, s =>
      if s = "0" then some (some "A", some (.st .L2))
      else if s = "1" then some (some "B", some (.st .R4))
      else none
  | .R3, s =>
      if s = "0" then some (some "A", some (.st .R4))
      else if s = "1" then some (some "B", some (.st .L2))
      else none
  | .R4, s =>
      if s = "X" then some (none, some (.st .L1))
      else if s = "Y" then some (some "Halt", some (.vd "Halt"))
      else none

/-- Whether a symbol is accepted by a state (Python `read in config`). -/
def accB (st : StName) (s : String) : Bool := (rwn st s).isSome

/-- Python `str.startswith`, as a test on the character lists. -/
def startsWithL : List Char → List Char → Bool
  | _, [] => true
  | [], _ :: _ => false
  | a :: l, b :: m => a == b && startsWithL l m

/-- One cursor move, `State.shift`.  Python computes, for a left state,
`shift = pointer - 1; pointer = (shift >= 0 and shift) or 0`, which by
truthiness equals `p - 1` clamped at `0` (exactly `Nat` subtraction), and
for a right state `shift = pointer + 1;
pointer = (shift < str_length and shift) or (str_length - 1)`, i.e.
`p + 1` clamped to `len - 1` (`shift` is at least `1`, hence truthy).
The direction is dispatched on the first letter of the class name
(`self.__class__.__name__.startswith("L")` / `("R")`). -/
def shift (st : StName) (len p : Nat) : Nat :=
  if startsWithL (className st).data ("L").data then
    p - 1
  else if startsWithL (className st).data ("R").data then
    if p + 1 < len then p + 1 else len - 1
  else p

/-- The run context: tape, cursor, current state
(`Locator.parse_string`, `Locator.pointer`, `Locator.curr_state`). -/
structure Cfg where
  tape : List String
  p : Nat
  st : StName
deriving DecidableEq, Repr

/-- The loop of `State.read`: shift the cursor, then test the symbol under
it against the state's dictionary; repeat until a match.  Returns the
cursor position at which the accepted symbol was found (the symbol itself
is `tape.getD result ""`; the Python function returns the symbol and
leaves the cursor there as a side effect).  `none` means the fuel ran out;
with fuel `tape.length + 1` that only happens when the Python loop would
run forever. -/
def readF : Nat → StName → List String → Nat → Option Nat
  | 0, _, _, _ => none
  | f + 1, st, tape, p =>
      let p' := shift st tape.length p
      if accB st (tape.getD p' ("")) then some p' else readF f st tape p'

/-- One `State.process` call: read, look up `(write, next)`, write the
symbol back unless it is `None` or a terminal verdict, and update the
current state (`next = None` repeats the current state; when `next` is a
terminal verdict the Python code stores the verdict string in
`curr_state`, which the run loop never consults again, so we keep the
state unchanged there).  Returns the write together with the new context. -/
def processF (rf : Nat) (c : Cfg) : Option (Option String × Cfg) :=
  match readF rf c.st c.tape c.p with
  | none => none
  | some q =>
    match rwn c.st (c.tape.getD q ("")) with
    | none => none
    | some (w, nx) =>
      let tape' := match w with
        | some v => if v = "Copy" ∨ v = "Halt" then c.tape else c.tape.set q v
        | none => c.tape
      let st' := match nx with
        | none => c.st
        | some (.st s) => s
        | some (.vd _) => c.st
      some (w, ⟨tape', q, st'⟩)

/-- The loop of `Locator.process`: call `process` on the current state
until the returned write is one of the two terminal verdicts, then return
the tape and the verdict.  The outer fuel bounds the number of `process`
calls; each inner read loop gets fuel `tape.length + 1`. -/
def runF : Nat → Cfg → Option (List String × String)
  | 0, _ => none
  | n + 1, c =>
    match processF (c.tape.length + 1) c with
    | none => none
    | some (w, c') =>
      match w with
      | some v => if v = "Halt" ∨ v = "Copy" then some (c'.tape, v) else runF n c'
      | none => runF n c'

/-- Python `"".join(...)` on the tape list. -/
def joinAll (l : List String) : String := l.foldl (· ++ ·) ""

/-- Python `list(parse_string)`: the string as a list of one-character
strings. -/
def mkTape (s : String) : List String := s.data.map Char.toString

/-- Python `parse_string.split("X")` on the tape list: split into the
chunks between occurrences of `"X"`. -/
def splitX : List String → List (List String)
  | [] => [[]]
  | a :: rest =>
    match splitX rest with
    | [] => [[]]
    | u :: us => if a = "X" then [] :: u :: us else (a :: u) :: us

/-- Python `unit.strip("Y")`: remove every leading and trailing `"Y"`. -/
def stripY (l : List String) : List String :=
  ((l.dropWhile (fun s => s == "Y")).reverse.dropWhile (fun s => s == "Y")).reverse

/-- `Locator._validate_string`: the three assertions, in order.  Python
raises at the first failing assertion; here the conjunction is `false`.
(On the empty string Python raises `IndexError` instead of
`AssertionError`; construction fails either way.) -/
def validateString (cs : List String) : Bool :=
  (cs.headD ("") == "Y" && cs.getLastD ("") == "Y") &&
  (let units := splitX cs
   let target := stripY (units.headD [])
   (decide (1 < units.length) && !target.isEmpty) &&
   (decide (0 < target.length) && decide (target.length < (units.getD 1 []).length)))

/-- The context right after `Locator.__init__` and `start`: cursor at the
first `"X"` (`parse_string.index("X")`), state `L1`. -/
def startCfg (cs : List String) : Cfg := ⟨cs, cs.indexOf ("X"), .L1⟩

/-- The whole pipeline `Locator(s).start()`: validation, then the run
loop; `none` models a raised exception (or exhausted fuel). -/
def locRun (fuel : Nat) (s : String) : Option (String × String) :=
  if validateString (mkTape s) then
    (runF fuel (startCfg (mkTape s))).map (fun r => (joinAll r.1, r.2))
  else none

/-! ### Spec-side vocabulary: well-formed tapes per the §6 input contract

A well-formed tape encodes a target bit-pattern and one or more candidate
bit-patterns: `"Y" target "X" cand₁ "X" cand₂ ... "X" candₘ "Y"`, the
target non-empty and strictly shorter than the first candidate (§1, §3,
§6 of the spec). -/

/-- A bit symbol of a target / candidate pattern. -/
def isBit (s : String) : Bool := s == "0" || s == "1"

/-- A marker symbol (relabeled bit). -/
def isMarker (s : String) : Bool := s == "A" || s == "B"

/-- The marker corresponding to a bit (`0 ↦ A`, `1 ↦ B`); other symbols
are left unchanged. -/
def mark (s : String) : String :=
  if s = "0" then "A" else if s = "1" then "B" else s

/-- Relabel every bit of a segment to its marker. -/
def markAll (l : List String) : List String := l.map mark

/-- The candidate region of a tape: the candidate blocks joined by the
separator `"X"`. -/
def seg : List (List String) → List String
  | [] => []
  | [c] => c
  | c :: rest => c ++ ["X"] ++ seg rest

/-- The candidate region that follows a first block: empty when there is
no further block, otherwise an `"X"` and the remaining region. -/
def segTail (rem : List (List String)) : List String :=
  match rem with
  | [] => []
  | _ :: _ => "X" :: seg rem

/-- The tape encoding a target `T` and candidate blocks `C` (§6 layout). -/
def tapeTC (T : List String) (C : List (List String)) : List String :=
  "Y" :: (T ++ "X" :: (seg C ++ ["Y"]))

/-- Whether the first list is an initial segment of the second, symbol by
symbol ("the target equals the candidate up to the candidate's
boundary"). -/
def isPfxOf : List String → List String → Bool
  | [], _ => true
  | _ :: _, [] => false
  | a :: l, b :: m => a == b && isPfxOf l m

/-- The §6 input contract on the decomposed tape: all segments are
non-empty bit-patterns, there is at least one candidate, and the target
is strictly shorter than the first candidate. -/
def wfT (T : List String) (C : List (List String)) : Prop :=
  (∀ s ∈ T, isBit s = true) ∧ T ≠ [] ∧ C ≠ [] ∧
  (∀ c ∈ C, (∀ s ∈ c, isBit s = true) ∧ c ≠ []) ∧
  T.length < (C.headD []).length

instance (T : List String) (C : List (List String)) : Decidable (wfT T C) := by
  unfold wfT; infer_instance

/-- Number of bit symbols in a segment (termination measure of the left
sweep of `Left1`). -/
def digitCount : List String → Nat
  | [] => 0
  | s :: r => (if isBit s then 1 else 0) + digitCount r

/-- The state to which `Right1` hands over after restoring a target
marker for bit `a`: `Right2` tracks a restored `0`, `Right3` a restored
`1`. -/
def nxtOf (a : String) : StName := if a = "0" then .R2 else .R3

/-- The acceptance rule of the code's validator, expressed in the spec's
vocabulary: delimiters `Y` at both ends, at least one `X`, the segment
before the first `X` stripped of `Y`s non-empty, and strictly shorter
than the chunk between the first `X` and the next `X` or the end of the
string (that chunk keeps a closing `Y` when there is only one `X`). -/
def contractOK (cs : List String) : Bool :=
  cs.headD ("") == "Y" && cs.getLastD ("") == "Y" && cs.contains ("X") &&
  (let tgt := stripY (cs.takeWhile (fun s => s != "X"))
   let cand := ((cs.dropWhile (fun s => s != "X")).drop 1).takeWhile (fun s => s != "X")
   !tgt.isEmpty && decide (tgt.length < cand.length))

/-- The §6 contract as the claim states it: as `contractOK`, but the
first candidate segment is "between the first and second `X`, or between
the last `X` and the closing `Y`" (excluding that `Y`). -/
def origContract (cs : List String) : Bool :=
  cs.headD ("") == "Y" && cs.getLastD ("") == "Y" && cs.contains ("X") &&
  (let tgt := stripY (cs.takeWhile (fun s => s != "X"))
   let after := (cs.dropWhile (fun s => s != "X")).drop 1
   let cand := if after.contains ("X") then after.takeWhile (fun s => s != "X")
               else after.dropLast
   !tgt.isEmpty && decide (tgt.length < cand.length))

/-- Whether a state is a left-moving state (class name starting with
`"L"`). -/
def dirL (st : StName) : Bool := startsWithL (className st).data ("L").data

/-- The configuration at the start of the scan of a candidate block: the
target fully relabeled to markers, the already-scanned candidate region
`pre` (markers and separators), the remaining blocks `rem`, the closing
delimiter; cursor on the head delimiter, state `R1`. -/
def blockCfg (T pre : List String) (rem : List (List String)) : Cfg :=
  ⟨"Y" :: (markAll T ++ "X" :: (pre ++ (seg rem ++ ["Y"]))), 0, .R1⟩

/-! ### Generic list helpers -/

theorem getD_at_len (α : List String) (x : String) (ω : List String) (d : String) :
    (α ++ x :: ω).getD α.length d = x := by
  induction α with
  | nil => rfl
  | cons a α ih => simpa using ih

theorem set_at_len (α : List String) (x v : String) (ω : List String) :
    (α ++ x :: ω).set α.length v = α ++ v :: ω := by
  induction α with
  | nil => rfl
  | cons a α ih => simp [ih]

/-! ### Direction and shift -/

theorem dirL_eq : ∀ st, dirL st = (st = .L1 || st = .L2) := by
  intro st; cases st <;> rfl

theorem shift_left (st : StName) (h : dirL st = true) (len p : Nat) :
    shift st len p = p - 1 := by
  cases st <;> first | rfl | simp [dirL_eq] at h

theorem shift_right (st : StName) (h : dirL st = false) (len p : Nat) :
    shift st len p = if p + 1 < len then p + 1 else len - 1 := by
  cases st <;> first | rfl | simp [dirL_eq] at h

/-! ### Symbol classes -/

theorem bit_cases {s : String} (h : isBit s = true) : s = "0" ∨ s = "1" := by
  simp only [isBit, Bool.or_eq_true, beq_iff_eq] at h; exact h

theorem marker_cases {s : String} (h : isMarker s = true) : s = "A" ∨ s = "B" := by
  simp only [isMarker, Bool.or_eq_true, beq_iff_eq] at h; exact h

theorem mark_marker {s : String} (h : isBit s = true) : isMarker (mark s) = true := by
  rcases bit_cases h with h | h <;> subst h <;> rfl

theorem mark_of_nonbit {s : String} (h : isBit s = false) : mark s = s := by
  unfold mark
  rcases eq_or_ne s "0" with h0 | h0
  · subst h0; cases h
  rcases eq_or_ne s "1" with h1 | h1
  · subst h1; cases h
  simp [h0, h1]

theorem markAll_append (l r : List String) :
    markAll (l ++ r) = markAll l ++ markAll r := by
  simp [markAll]

theorem markAll_cons (s : String) (l : List String) :
    markAll (s :: l) = mark s :: markAll l := rfl

theorem markAll_idem (l : List String) : markAll (markAll l) = markAll l := by
  induction l with
  | nil => rfl
  | cons s l ih =>
    have hm : mark (mark s) = mark s := by
      unfold mark
      rcases eq_or_ne s "0" with h0 | h0
      · subst h0; rfl
      rcases eq_or_ne s "1" with h1 | h1
      · subst h1; rfl
      simp [h0, h1]
    simp [markAll_cons, hm, ih]

theorem markAll_of_nonbit (l : List String) (h : ∀ s ∈ l, isBit s = false) :
    markAll l = l := by
  induction l with
  | nil => rfl
  | cons s l ih =>
    simp only [markAll_cons]
    rw [mark_of_nonbit (h s (by simp)), ih (fun x hx => h x (by simp [hx]))]

theorem markAll_length (l : List String) : (markAll l).length = l.length := by
  simp [markAll]

theorem marker_ne_sym {s : String} (h : isMarker s = true) :
    s ≠ "0" ∧ s ≠ "1" ∧ s ≠ "X" ∧ s ≠ "Y" := by
  rcases marker_cases h with h | h <;> subst h <;> refine ⟨by decide, by decide, by decide, by decide⟩

theorem bit_ne_sym {s : String} (h : isBit s = true) :
    s ≠ "A" ∧ s ≠ "B" ∧ s ≠ "X" ∧ s ≠ "Y" := by
  rcases bit_cases h with h | h <;> subst h <;> refine ⟨by decide, by decide, by decide, by decide⟩

/-! ### Transition-table facts -/

theorem rwn_L1_bit {b : String} (h : isBit b = true) :
    rwn .L1 b = some (some (mark b), none) := by
  rcases bit_cases h with h | h <;> subst h <;> rfl

theorem rwn_R1_mark {b : String} (h : isBit b = true) :
    rwn .R1 (mark b) = some (some b, some (.st (nxtOf b))) := by
  rcases bit_cases h with h | h <;> subst h <;> rfl

theorem rwn_R23_match {b : String} (h : isBit b = true) :
    rwn (nxtOf b) b = some (some (mark b), some (.st .L2)) := by
  rcases bit_cases h with h | h <;> subst h <;> rfl

theorem rwn_R23_miss {a b : String} (ha : isBit a = true) (hb : isBit b = true)
    (hne : a ≠ b) : rwn (nxtOf a) b = some (some (mark b), some (.st .R4)) := by
  rcases bit_cases ha with h | h <;> rcases bit_cases hb with h' | h' <;>
    subst h <;> subst h' <;> first | rfl | exact absurd rfl hne

theorem accB_L1_false {s : String} (h0 : s ≠ "0") (h1 : s ≠ "1") (hY : s ≠ "Y") :
    accB .L1 s = false := by
  simp [accB, rwn, h0, h1, hY]

theorem accB_L2_false {s : String} (hY : s ≠ "Y") : accB .L2 s = false := by
  simp [accB, rwn, hY]

theorem accB_R1_false {s : String} (hA : s ≠ "A") (hB : s ≠ "B") (hX : s ≠ "X") :
    accB .R1 s = false := by
  simp [accB, rwn, hA, hB, hX]

theorem accB_R23_false {a s : String} (h0 : s ≠ "0") (h1 : s ≠ "1") :
    accB (nxtOf a) s = false := by
  unfold nxtOf
  rcases eq_or_ne a "0" with h | h <;> simp [h, accB, rwn, h0, h1]

theorem accB_R4_false {s : String} (hX : s ≠ "X") (hY : s ≠ "Y") :
    accB .R4 s = false := by
  simp [accB, rwn, hX, hY]

theorem accB_of_rwn {st : StName} {s : String} {r : Option String × Option NxtV}
    (h : rwn st s = some r) : accB st s = true := by
  simp [accB, h]

theorem dirL_nxtOf (a : String) : dirL (nxtOf a) = false := by
  unfold nxtOf; rcases eq_or_ne a "0" with h | h <;> simp [h, dirL_eq]

/-! ### The reachability relation of the run loop -/

/-- `Reach c c'` holds when the run loop moves from context `c` to
context `c'` in finitely many `process` calls, none of them terminal: any
outcome of the loop from `c'` is an outcome from `c`. -/
def Reach (c c' : Cfg) : Prop := ∃ k, ∀ n, runF (n + k) c = runF n c'

theorem reach_refl (c : Cfg) : Reach c c := ⟨0, fun _ => rfl⟩

theorem reach_trans {a b c : Cfg} (h1 : Reach a b) (h2 : Reach b c) :
    Reach a c := by
  obtain ⟨k1, h1⟩ := h1
  obtain ⟨k2, h2⟩ := h2
  refine ⟨k2 + k1, fun n => ?_⟩
  have := h1 (n + k2)
  rw [show n + (k2 + k1) = n + k2 + k1 by omega, this, h2]

theorem reach_step {c : Cfg} {w : Option String} {c' : Cfg}
    (h : processF (c.tape.length + 1) c = some (w, c'))
    (hw : w = none ∨ ∃ v, w = some v ∧ v ≠ "Halt" ∧ v ≠ "Copy") :
    Reach c c' := by
  refine ⟨1, fun n => ?_⟩
  show runF (n + 1) c = runF n c'
  rw [runF, h]
  rcases hw with hw | ⟨v, hv, hH, hC⟩
  · subst hw; rfl
  · subst hv; simp [hH, hC]

theorem run_term {c : Cfg} {v : String} {c' : Cfg} (n : Nat)
    (h : processF (c.tape.length + 1) c = some (some v, c'))
    (hv : v = "Halt" ∨ v = "Copy") :
    runF (n + 1) c = some (c'.tape, v) := by
  rw [runF, h]
  rcases hv with hv | hv <;> simp [hv]

theorem runF_mono {c : Cfg} {r : List String × String} :
    ∀ {n : Nat}, runF n c = some r → runF (n + 1) c = some r := by
  intro n
  induction n generalizing c with
  | zero => intro h; cases h
  | succ m ih =>
    intro h
    rw [runF] at h ⊢
    cases hp : processF (c.tape.length + 1) c with
    | none => rw [hp] at h; cases h
    | some wc =>
      obtain ⟨w, c'⟩ := wc
      rw [hp] at h
      cases w with
      | none => exact ih h
      | some v =>
        dsimp only at h ⊢
        by_cases hv : v = "Halt" ∨ v = "Copy"
        · rw [if_pos hv] at h ⊢; exact h
        · rw [if_neg hv] at h ⊢; exact ih h

theorem runF_le_mono {c : Cfg} {r : List String × String} {n m : Nat}
    (hnm : n ≤ m) (h : runF n c = some r) : runF m c = some r := by
  induction hnm with
  | refl => exact h
  | step _ ih => exact runF_mono ih

theorem reach_out {c c' : Cfg} {r : List String × String}
    (h : Reach c c') (h' : ∃ n, runF n c' = some r) : ∃ m, runF m c = some r := by
  obtain ⟨k, hk⟩ := h
  obtain ⟨n, hn⟩ := h'
  exact ⟨n + k, by rw [hk, hn]⟩

theorem reach_none {c c' : Cfg} (h : Reach c c')
    (h' : ∀ n, runF n c' = none) : ∀ n, runF n c = none := by
  obtain ⟨k, hk⟩ := h
  intro n
  by_contra hne
  match hr : runF n c with
  | none => exact hne hr
  | some r =>
    have h1 : runF (n + k) c = some r := runF_le_mono (by omega) hr
    rw [hk n, h' n] at h1
    cases h1

/-! ### Read-loop workhorse lemmas -/

theorem readR_seg (st : StName) (hd : dirL st = false) (α : List String)
    (c0 : String) (mid : List String) (e : String) (ω : List String)
    (hm : ∀ s ∈ mid, accB st s = false) (he : accB st e = true) :
    ∀ f, mid.length + 1 ≤ f →
      readF f st (α ++ c0 :: (mid ++ e :: ω)) α.length
        = some (α.length + (mid.length + 1)) := by
  induction mid generalizing α c0 with
  | nil =>
    intro f hf
    match f, hf with
    | g + 1, _ =>
      rw [readF]
      have hlen : α.length + 1 < (α ++ c0 :: ([] ++ e :: ω)).length := by
        simp [List.length_append]
      rw [shift_right st hd, if_pos hlen]
      have hget : (α ++ c0 :: ([] ++ e :: ω)).getD (α.length + 1) ("") = e := by
        have harr : α ++ c0 :: ([] ++ e :: ω) = (α ++ [c0]) ++ e :: ω := by simp
        rw [harr, show α.length + 1 = (α ++ [c0]).length by simp, getD_at_len]
      rw [hget, if_pos he]
      simp
  | cons m mid ih =>
    intro f hf
    match f, hf with
    | g + 1, hf =>
      rw [readF]
      have hlen : α.length + 1 < (α ++ c0 :: ((m :: mid) ++ e :: ω)).length := by
        simp [List.length_append]
      rw [shift_right st hd, if_pos hlen]
      have hget : (α ++ c0 :: ((m :: mid) ++ e :: ω)).getD (α.length + 1) ("") = m := by
        have harr : α ++ c0 :: ((m :: mid) ++ e :: ω) = (α ++ [c0]) ++ m :: (mid ++ e :: ω) := by
          simp
        rw [harr, show α.length + 1 = (α ++ [c0]).length by simp, getD_at_len]
      rw [hget, hm m (by simp), if_neg (by simp)]
      have hre : α ++ c0 :: ((m :: mid) ++ e :: ω) = (α ++ [c0]) ++ m :: (mid ++ e :: ω) := by
        simp
      have hih := ih (α ++ [c0]) m (fun s hs => hm s (by simp [hs])) g
        (by simp only [List.length_cons] at hf; omega)
      rw [hre, show α.length + 1 = (α ++ [c0]).length by simp, hih]
      congr 1
      simp only [List.length_append, List.length_cons, List.length_nil]
      omega

theorem readL_seg (st : StName) (hd : dirL st = true) (α : List String)
    (e : String) (mid : List String) (c0 : String) (ω : List String)
    (hm : ∀ s ∈ mid, accB st s = false) (he : accB st e = true) :
    ∀ f, mid.length + 1 ≤ f →
      readF f st (α ++ e :: (mid ++ c0 :: ω)) (α.length + 1 + mid.length)
        = some α.length := by
  induction mid using List.reverseRecOn generalizing c0 ω with
  | nil =>
    intro f hf
    match f, hf with
    | g + 1, _ =>
      rw [readF]
      rw [shift_left st hd]
      simp only [List.length_nil, Nat.add_zero, List.nil_append, Nat.add_sub_cancel]
      rw [getD_at_len α e (c0 :: ω) "", if_pos he]
  | append_singleton mid m ih =>
    intro f hf
    match f, hf with
    | g + 1, hf =>
      rw [readF]
      rw [shift_left st hd]
      have hpos : α.length + 1 + (mid ++ [m]).length - 1 = (α ++ e :: mid).length := by
        simp only [List.length_append, List.length_cons, List.length_nil]
        omega
      have hget : (α ++ e :: ((mid ++ [m]) ++ c0 :: ω)).getD
          (α.length + 1 + (mid ++ [m]).length - 1) ("") = m := by
        have harr : α ++ e :: ((mid ++ [m]) ++ c0 :: ω) = (α ++ e :: mid) ++ m :: (c0 :: ω) := by
          simp
        rw [harr, hpos, getD_at_len]
      rw [hget, hm m (by simp), if_neg (by simp)]
      have hih := ih m (c0 :: ω) (fun s hs => hm s (by simp [hs])) g
        (by simp only [List.length_append, List.length_cons, List.length_nil] at hf; omega)
      have hre : α ++ e :: ((mid ++ [m]) ++ c0 :: ω) = α ++ e :: (mid ++ m :: (c0 :: ω)) := by
        simp
      rw [hre, hpos, show (α ++ e :: mid).length = α.length + 1 + mid.length by
        simp only [List.length_append, List.length_cons]; omega]
      exact hih

/-! ### Single `process` steps -/

theorem processF_write_stay {c : Cfg} {q : Nat} {sym v : String} (rf : Nat)
    (h1 : readF rf c.st c.tape c.p = some q)
    (h2 : c.tape.getD q ("") = sym)
    (h3 : rwn c.st sym = some (some v, none))
    (hv1 : v ≠ "Copy") (hv2 : v ≠ "Halt") :
    processF rf c = some (some v, ⟨c.tape.set q v, q, c.st⟩) := by
  unfold processF
  rw [h1]
  dsimp only
  rw [h2, h3]
  have : ¬ (v = "Copy" ∨ v = "Halt") := by simp [hv1, hv2]
  simp [this]

theorem processF_write_go {c : Cfg} {q : Nat} {sym v : String} {s' : StName} (rf : Nat)
    (h1 : readF rf c.st c.tape c.p = some q)
    (h2 : c.tape.getD q ("") = sym)
    (h3 : rwn c.st sym = some (some v, some (.st s')))
    (hv1 : v ≠ "Copy") (hv2 : v ≠ "Halt") :
    processF rf c = some (some v, ⟨c.tape.set q v, q, s'⟩) := by
  unfold processF
  rw [h1]
  dsimp only
  rw [h2, h3]
  have : ¬ (v = "Copy" ∨ v = "Halt") := by simp [hv1, hv2]
  simp [this]

theorem processF_nowrite_go {c : Cfg} {q : Nat} {sym : String} {s' : StName} (rf : Nat)
    (h1 : readF rf c.st c.tape c.p = some q)
    (h2 : c.tape.getD q ("") = sym)
    (h3 : rwn c.st sym = some (none, some (.st s'))) :
    processF rf c = some (none, ⟨c.tape, q, s'⟩) := by
  unfold processF
  rw [h1]
  dsimp only
  rw [h2, h3]

theorem processF_term {c : Cfg} {q : Nat} {sym v v' : String} (rf : Nat)
    (h1 : readF rf c.st c.tape c.p = some q)
    (h2 : c.tape.getD q ("") = sym)
    (h3 : rwn c.st sym = some (some v, some (.vd v')))
    (hv : v = "Copy" ∨ v = "Halt") :
    processF rf c = some (some v, ⟨c.tape, q, c.st⟩) := by
  unfold processF
  rw [h1]
  dsimp only
  rw [h2, h3]
  simp [hv]

/-! ### Counting digits, splitting patterns -/

theorem digitCount_append (l r : List String) :
    digitCount (l ++ r) = digitCount l + digitCount r := by
  induction l with
  | nil => simp [digitCount]
  | cons s l ih => simp [digitCount, ih]; omega

theorem digitCount_zero {l : List String} (h : digitCount l = 0) :
    ∀ s ∈ l, isBit s = false := by
  induction l with
  | nil => intro s hs; cases hs
  | cons a l ih =>
    intro s hs
    rw [digitCount] at h
    rcases List.mem_cons.mp hs with rfl | hs'
    · cases hb : isBit s
      · rfl
      · rw [hb] at h; simp at h
    · exact ih (by omega) s hs'

theorem nonbit_ne {s : String} (h : isBit s = false) : s ≠ "0" ∧ s ≠ "1" := by
  constructor <;> rintro rfl <;> simp [isBit] at h

theorem bit_digitCount {d : String} (h : isBit d = true) : (if isBit d then 1 else 0) = 1 := by
  simp [h]

theorem last_digit_split {μ : List String} (h : digitCount μ ≠ 0) :
    ∃ μ' d ν, μ = μ' ++ d :: ν ∧ isBit d = true ∧ digitCount ν = 0 := by
  induction μ using List.reverseRecOn with
  | nil => exact absurd rfl h
  | append_singleton μ m ih =>
    cases hm : isBit m with
    | true => exact ⟨μ, m, [], rfl, hm, rfl⟩
    | false =>
      have h' : digitCount μ ≠ 0 := by
        rw [digitCount_append] at h
        simp [digitCount, hm] at h
        exact h
      obtain ⟨μ', d, ν, hsplit, hd, hν⟩ := ih h'
      refine ⟨μ', d, ν ++ [m], by simp [hsplit], hd, ?_⟩
      rw [digitCount_append, hν, digitCount]
      simp [hm, digitCount]

theorem pfx_split {l m : List String} (h : isPfxOf l m = true) :
    ∃ r, m = l ++ r := by
  induction l generalizing m with
  | nil => exact ⟨m, rfl⟩
  | cons a l ih =>
    cases m with
    | nil => cases h
    | cons b m' =>
      rw [isPfxOf] at h
      simp only [Bool.and_eq_true, beq_iff_eq] at h
      obtain ⟨rfl, h2⟩ := h
      obtain ⟨r, rfl⟩ := ih h2
      exact ⟨r, rfl⟩

theorem first_mismatch {T c : List String} (hn : isPfxOf T c = false)
    (hl : T.length ≤ c.length) :
    ∃ t1 a t2 b c2, T = t1 ++ a :: t2 ∧ c = t1 ++ b :: c2 ∧ a ≠ b := by
  induction T generalizing c with
  | nil => cases hn
  | cons a T' ih =>
    cases c with
    | nil => simp at hl
    | cons b c' =>
      rcases eq_or_ne a b with rfl | hab
      · rw [isPfxOf] at hn
        simp only [beq_self_eq_true, Bool.true_and] at hn
        obtain ⟨t1, x, t2, y, c2, hT, hc, hxy⟩ := ih hn (by simpa using hl)
        exact ⟨a :: t1, x, t2, y, c2, by simp [hT], by simp [hc], hxy⟩
      · exact ⟨[], a, T', b, c', rfl, rfl, hab⟩

/-! ### Candidate-region layout -/

theorem seg_cons (c : List String) (rest : List (List String)) :
    seg (c :: rest) = c ++ segTail rest := by
  cases rest with
  | nil => simp [seg, segTail]
  | cons r rest' => simp [seg, segTail]

theorem seg_one (c : List String) : seg [c] = c := rfl

theorem bit_ne_verdict {d : String} (h : isBit d = true) :
    d ≠ "Copy" ∧ d ≠ "Halt" := by
  rcases bit_cases h with rfl | rfl <;> exact ⟨by decide, by decide⟩

theorem mark_ne_verdict {d : String} (h : isBit d = true) :
    mark d ≠ "Copy" ∧ mark d ≠ "Halt" := by
  rcases bit_cases h with rfl | rfl <;> exact ⟨by decide, by decide⟩

theorem mark_idem (s : String) : mark (mark s) = mark s := by
  unfold mark
  rcases eq_or_ne s "0" with h0 | h0
  · subst h0; rfl
  rcases eq_or_ne s "1" with h1 | h1
  · subst h1; rfl
  simp [h0, h1]

theorem mark_X : mark "X" = "X" := rfl

theorem accB_L1_bit {d : String} (h : isBit d = true) : accB .L1 d = true :=
  accB_of_rwn (rwn_L1_bit h)

theorem accB_R1_mark {d : String} (h : isBit d = true) : accB .R1 (mark d) = true :=
  accB_of_rwn (rwn_R1_mark h)

theorem accB_R23_bit {a d : String} (ha : isBit a = true) (hd : isBit d = true) :
    accB (nxtOf a) d = true := by
  rcases eq_or_ne a d with rfl | hne
  · exact accB_of_rwn (rwn_R23_match hd)
  · exact accB_of_rwn (rwn_R23_miss ha hd (Ne.symm (Ne.symm hne)))

/-! ### Phase 1: the left sweep of `Left1`

Starting just right of a stretch `μ` that contains no `"Y"`, state `L1`
relabels every bit of `μ` to its marker, right to left, then meets the
head delimiter `"Y"` and hands over to `R1` at position 0. -/

theorem sweep_exit (μ : List String) (w0 : String) (ω' : List String)
    (hnb : ∀ s ∈ μ, isBit s = false) (hY : ∀ s ∈ μ, s ≠ "Y") :
    Reach ⟨"Y" :: (μ ++ w0 :: ω'), μ.length + 1, .L1⟩
          ⟨"Y" :: (markAll μ ++ w0 :: ω'), 0, .R1⟩ := by
  have hm : ∀ s ∈ μ, accB .L1 s = false := by
    intro s hs
    obtain ⟨h0', h1'⟩ := nonbit_ne (hnb s hs)
    exact accB_L1_false h0' h1' (hY s hs)
  have hread := readL_seg .L1 (by decide) [] "Y" μ w0 ω' hm (by decide)
    (("Y" :: (μ ++ w0 :: ω')).length + 1)
    (by simp only [List.length_cons, List.length_append]; omega)
  simp only [List.nil_append, List.length_nil, Nat.zero_add] at hread
  have hread' : readF (("Y" :: (μ ++ w0 :: ω')).length + 1) .L1
      ("Y" :: (μ ++ w0 :: ω')) (μ.length + 1) = some 0 := by
    rw [show μ.length + 1 = 1 + μ.length by omega]
    exact hread
  have hproc : processF (("Y" :: (μ ++ w0 :: ω')).length + 1)
      ⟨"Y" :: (μ ++ w0 :: ω'), μ.length + 1, .L1⟩
      = some (none, ⟨"Y" :: (μ ++ w0 :: ω'), 0, .R1⟩) :=
    processF_nowrite_go _ hread'
      (show ("Y" :: (μ ++ w0 :: ω')).getD 0 ("") = "Y" by rfl)
      (show rwn .L1 "Y" = some (none, some (.st .R1)) by rfl)
  have hstep := reach_step hproc (Or.inl rfl)
  rw [markAll_of_nonbit μ hnb]
  exact hstep

theorem sweep_aux : ∀ n : Nat, ∀ μ : List String, ∀ w0 : String, ∀ ω' : List String,
    digitCount μ ≤ n → (∀ s ∈ μ, s ≠ "Y") →
    Reach ⟨"Y" :: (μ ++ w0 :: ω'), μ.length + 1, .L1⟩
          ⟨"Y" :: (markAll μ ++ w0 :: ω'), 0, .R1⟩ := by
  intro n
  induction n with
  | zero =>
    intro μ w0 ω' hc hY
    exact sweep_exit μ w0 ω' (digitCount_zero (by omega)) hY
  | succ k ih =>
    intro μ w0 ω' hc hY
    by_cases h0 : digitCount μ = 0
    · exact sweep_exit μ w0 ω' (digitCount_zero h0) hY
    · obtain ⟨μ', d, ν, rfl, hd, hν⟩ := last_digit_split h0
      have hshape : "Y" :: ((μ' ++ d :: ν) ++ w0 :: ω') = ("Y" :: μ') ++ d :: (ν ++ w0 :: ω') := by
        simp
      have hm : ∀ s ∈ ν, accB .L1 s = false := by
        intro s hs
        obtain ⟨h0', h1'⟩ := nonbit_ne (digitCount_zero hν s hs)
        exact accB_L1_false h0' h1' (hY s (by simp [hs]))
      have hread := readL_seg .L1 (by decide) ("Y" :: μ') d ν w0 ω' hm (accB_L1_bit hd)
        (("Y" :: ((μ' ++ d :: ν) ++ w0 :: ω')).length + 1)
        (by simp only [List.length_cons, List.length_append]; omega)
      rw [← hshape] at hread
      have hplen : ("Y" :: μ').length + 1 + ν.length = (μ' ++ d :: ν).length + 1 := by
        simp only [List.length_cons, List.length_append]; omega
      rw [hplen] at hread
      simp only [List.length_cons] at hread
      have hgetd : ("Y" :: ((μ' ++ d :: ν) ++ w0 :: ω')).getD (μ'.length + 1) ("") = d := by
        rw [hshape, show μ'.length + 1 = ("Y" :: μ').length by simp, getD_at_len]
      have hproc : processF (("Y" :: ((μ' ++ d :: ν) ++ w0 :: ω')).length + 1)
          ⟨"Y" :: ((μ' ++ d :: ν) ++ w0 :: ω'), (μ' ++ d :: ν).length + 1, .L1⟩
          = some (some (mark d),
              ⟨("Y" :: ((μ' ++ d :: ν) ++ w0 :: ω')).set (μ'.length + 1) (mark d),
               μ'.length + 1, .L1⟩) :=
        processF_write_stay _ hread hgetd (rwn_L1_bit hd)
          (mark_ne_verdict hd).1 (mark_ne_verdict hd).2
      have hset : ("Y" :: ((μ' ++ d :: ν) ++ w0 :: ω')).set (μ'.length + 1) (mark d)
          = "Y" :: (μ' ++ mark d :: (ν ++ w0 :: ω')) := by
        rw [hshape, show μ'.length + 1 = ("Y" :: μ').length by simp, set_at_len]
        simp
      rw [hset] at hproc
      have hstep := reach_step hproc
        (Or.inr ⟨mark d, rfl, (mark_ne_verdict hd).2, (mark_ne_verdict hd).1⟩)
      have hcnt : digitCount μ' ≤ k := by
        rw [digitCount_append] at hc
        simp [digitCount, hd, digitCount_zero, hν] at hc
        omega
      have hIH := ih μ' (mark d) (ν ++ w0 :: ω') hcnt (fun s hs => hY s (by simp [hs]))
      have hfin : "Y" :: (markAll μ' ++ mark d :: (ν ++ w0 :: ω'))
          = "Y" :: (markAll (μ' ++ d :: ν) ++ w0 :: ω') := by
        rw [markAll_append, markAll_cons, markAll_of_nonbit ν (digitCount_zero hν)]
        simp
      rw [hfin] at hIH
      exact reach_trans hstep hIH

/-! ### Phase 2: single steps of the comparison loop -/

theorem cfg_eq {t t' : List String} {p p' : Nat} {s : StName}
    (ht : t = t') (hp : p = p') : (⟨t, p, s⟩ : Cfg) = ⟨t', p', s⟩ := by
  rw [ht, hp]

theorem markAll_markers {l : List String} (h : ∀ s ∈ l, isBit s = true) :
    ∀ s ∈ markAll l, isMarker s = true := by
  intro s hs
  obtain ⟨x, hx, rfl⟩ := List.mem_map.mp hs
  exact mark_marker (h x hx)

theorem rwn_R23 {a e : String} (ha : isBit a = true) (he : isBit e = true) :
    rwn (nxtOf a) e = some (some (mark e), some (.st (if e = a then .L2 else .R4))) := by
  rcases bit_cases ha with rfl | rfl <;> rcases bit_cases he with rfl | rfl <;> decide

/-- `R1` walks right from the head delimiter over the restored digits
`t1`, finds the leftmost target marker, writes its digit back and hands
over to `R2`/`R3` at that position. -/
theorem step_R1_restore (t1 : List String) (d : String) (rest0 : List String)
    (ht1 : ∀ s ∈ t1, isBit s = true) (hd : isBit d = true) :
    Reach ⟨"Y" :: (t1 ++ mark d :: rest0), 0, .R1⟩
          ⟨"Y" :: (t1 ++ d :: rest0), t1.length + 1, nxtOf d⟩ := by
  have hm : ∀ s ∈ t1, accB .R1 s = false := by
    intro s hs
    obtain ⟨hA, hB, hX, _⟩ := bit_ne_sym (ht1 s hs)
    exact accB_R1_false hA hB hX
  have hread := readR_seg .R1 (by decide) [] "Y" t1 (mark d) rest0 hm (accB_R1_mark hd)
    (("Y" :: (t1 ++ mark d :: rest0)).length + 1)
    (by simp only [List.length_cons, List.length_append]; omega)
  simp only [List.nil_append, List.length_nil, Nat.zero_add] at hread
  have hgetd : ("Y" :: (t1 ++ mark d :: rest0)).getD (t1.length + 1) ("") = mark d := by
    rw [show ("Y" :: (t1 ++ mark d :: rest0)) = ("Y" :: t1) ++ mark d :: rest0 by simp,
      show t1.length + 1 = ("Y" :: t1).length by simp, getD_at_len]
  have hproc : processF (("Y" :: (t1 ++ mark d :: rest0)).length + 1)
      ⟨"Y" :: (t1 ++ mark d :: rest0), 0, .R1⟩
      = some (some d,
          ⟨("Y" :: (t1 ++ mark d :: rest0)).set (t1.length + 1) d, t1.length + 1, nxtOf d⟩) :=
    processF_write_go _ hread hgetd (rwn_R1_mark hd)
      (bit_ne_verdict hd).1 (bit_ne_verdict hd).2
  have hset : ("Y" :: (t1 ++ mark d :: rest0)).set (t1.length + 1) d
      = "Y" :: (t1 ++ d :: rest0) := by
    rw [show ("Y" :: (t1 ++ mark d :: rest0)) = ("Y" :: t1) ++ mark d :: rest0 by simp,
      show t1.length + 1 = ("Y" :: t1).length by simp, set_at_len]
    simp
  rw [hset] at hproc
  exact reach_step hproc
    (Or.inr ⟨d, rfl, (bit_ne_verdict hd).2, (bit_ne_verdict hd).1⟩)

/-- `R2`/`R3` walks right from the just-restored target digit over the
non-digit stretch `μ`, consumes the first digit `e` it finds, marks it,
and moves to `L2` on a match or `R4` on a mismatch. -/
theorem step_R23 (a : String) (t1 : List String) (μ : List String) (e : String)
    (ω : List String) (ha : isBit a = true) (he : isBit e = true)
    (hμ : ∀ s ∈ μ, accB (nxtOf a) s = false) :
    Reach ⟨("Y" :: t1) ++ a :: (μ ++ e :: ω), t1.length + 1, nxtOf a⟩
          ⟨("Y" :: t1) ++ a :: (μ ++ mark e :: ω), t1.length + 1 + (μ.length + 1),
           if e = a then .L2 else .R4⟩ := by
  have hread := readR_seg (nxtOf a) (dirL_nxtOf a) ("Y" :: t1) a μ e ω hμ
    (accB_R23_bit ha he)
    ((("Y" :: t1) ++ a :: (μ ++ e :: ω)).length + 1)
    (by simp only [List.length_cons, List.length_append]; omega)
  have hq : ("Y" :: t1).length + (μ.length + 1) = t1.length + 1 + (μ.length + 1) := by
    simp
  rw [hq] at hread
  have hread' : readF ((("Y" :: t1) ++ a :: (μ ++ e :: ω)).length + 1) (nxtOf a)
      (("Y" :: t1) ++ a :: (μ ++ e :: ω)) (t1.length + 1)
      = some (t1.length + 1 + (μ.length + 1)) := by
    rw [show t1.length + 1 = ("Y" :: t1).length by simp]
    exact hread
  have hA2 : ("Y" :: t1) ++ a :: (μ ++ e :: ω) = (("Y" :: t1) ++ a :: μ) ++ e :: ω := by
    simp
  have hA2len : t1.length + 1 + (μ.length + 1) = (("Y" :: t1) ++ a :: μ).length := by
    simp only [List.length_append, List.length_cons]; try omega
  have hgetd : (("Y" :: t1) ++ a :: (μ ++ e :: ω)).getD (t1.length + 1 + (μ.length + 1)) ("")
      = e := by
    rw [hA2, hA2len, getD_at_len]
  have hproc : processF ((("Y" :: t1) ++ a :: (μ ++ e :: ω)).length + 1)
      ⟨("Y" :: t1) ++ a :: (μ ++ e :: ω), t1.length + 1, nxtOf a⟩
      = some (some (mark e),
          ⟨(("Y" :: t1) ++ a :: (μ ++ e :: ω)).set (t1.length + 1 + (μ.length + 1)) (mark e),
           t1.length + 1 + (μ.length + 1), if e = a then .L2 else .R4⟩) :=
    processF_write_go _ hread' hgetd (rwn_R23 ha he)
      (mark_ne_verdict he).1 (mark_ne_verdict he).2
  have hset : (("Y" :: t1) ++ a :: (μ ++ e :: ω)).set (t1.length + 1 + (μ.length + 1)) (mark e)
      = ("Y" :: t1) ++ a :: (μ ++ mark e :: ω) := by
    rw [hA2, hA2len, set_at_len]
    simp
  rw [hset] at hproc
  exact reach_step hproc
    (Or.inr ⟨mark e, rfl, (mark_ne_verdict he).2, (mark_ne_verdict he).1⟩)

/-- `L2` walks left from anywhere over a `"Y"`-free stretch back to the
head delimiter and hands over to `R1` at position 0. -/
theorem step_L2 (ρ : List String) (c0 : String) (ω : List String)
    (hρ : ∀ s ∈ ρ, s ≠ "Y") :
    Reach ⟨"Y" :: (ρ ++ c0 :: ω), ρ.length + 1, .L2⟩
          ⟨"Y" :: (ρ ++ c0 :: ω), 0, .R1⟩ := by
  have hm : ∀ s ∈ ρ, accB .L2 s = false := fun s hs => accB_L2_false (hρ s hs)
  have hread := readL_seg .L2 (by decide) [] "Y" ρ c0 ω hm (by decide)
    (("Y" :: (ρ ++ c0 :: ω)).length + 1)
    (by simp only [List.length_cons, List.length_append]; omega)
  simp only [List.nil_append, List.length_nil, Nat.zero_add] at hread
  have hread' : readF (("Y" :: (ρ ++ c0 :: ω)).length + 1) .L2
      ("Y" :: (ρ ++ c0 :: ω)) (ρ.length + 1) = some 0 := by
    rw [show ρ.length + 1 = 1 + ρ.length by omega]
    exact hread
  have hproc : processF (("Y" :: (ρ ++ c0 :: ω)).length + 1)
      ⟨"Y" :: (ρ ++ c0 :: ω), ρ.length + 1, .L2⟩
      = some (none, ⟨"Y" :: (ρ ++ c0 :: ω), 0, .R1⟩) :=
    processF_nowrite_go _ hread'
      (show ("Y" :: (ρ ++ c0 :: ω)).getD 0 ("") = "Y" by rfl)
      (show rwn .L2 "Y" = some (none, some (.st .R1)) by rfl)
  exact reach_step hproc (Or.inl rfl)

/-- After a mismatch, `R4` walks right over the remaining digits of the
current candidate block to the next separator `"X"` and hands over to
`L1` there. -/
theorem step_R4_X (A : List String) (c0 : String) (μ : List String) (ω : List String)
    (hμ : ∀ s ∈ μ, accB .R4 s = false) :
    Reach ⟨A ++ c0 :: (μ ++ "X" :: ω), A.length, .R4⟩
          ⟨A ++ c0 :: (μ ++ "X" :: ω), A.length + (μ.length + 1), .L1⟩ := by
  have hread := readR_seg .R4 (by decide) A c0 μ "X" ω hμ (by decide)
    ((A ++ c0 :: (μ ++ "X" :: ω)).length + 1)
    (by simp only [List.length_cons, List.length_append]; omega)
  have hA2 : A ++ c0 :: (μ ++ "X" :: ω) = (A ++ c0 :: μ) ++ "X" :: ω := by simp
  have hA2len : A.length + (μ.length + 1) = (A ++ c0 :: μ).length := by
    simp only [List.length_append, List.length_cons]; try omega
  have hgetd : (A ++ c0 :: (μ ++ "X" :: ω)).getD (A.length + (μ.length + 1)) ("") = "X" := by
    rw [hA2, hA2len, getD_at_len]
  have hproc : processF ((A ++ c0 :: (μ ++ "X" :: ω)).length + 1)
      ⟨A ++ c0 :: (μ ++ "X" :: ω), A.length, .R4⟩
      = some (none, ⟨A ++ c0 :: (μ ++ "X" :: ω), A.length + (μ.length + 1), .L1⟩) :=
    processF_nowrite_go _ hread hgetd
      (show rwn .R4 "X" = some (none, some (.st .L1)) by rfl)
  exact reach_step hproc (Or.inl rfl)

/-- On the last candidate block, `R4` walks right over the remaining
digits to the closing delimiter `"Y"` and the run loop returns the
verdict `"Halt"`. -/
theorem step_R4_Y (A : List String) (c0 : String) (μ : List String) (ω : List String)
    (n : Nat) (hμ : ∀ s ∈ μ, accB .R4 s = false) :
    runF (n + 1) ⟨A ++ c0 :: (μ ++ "Y" :: ω), A.length, .R4⟩
      = some (A ++ c0 :: (μ ++ "Y" :: ω), "Halt") := by
  have hread := readR_seg .R4 (by decide) A c0 μ "Y" ω hμ (by decide)
    ((A ++ c0 :: (μ ++ "Y" :: ω)).length + 1)
    (by simp only [List.length_cons, List.length_append]; omega)
  have hA2 : A ++ c0 :: (μ ++ "Y" :: ω) = (A ++ c0 :: μ) ++ "Y" :: ω := by simp
  have hA2len : A.length + (μ.length + 1) = (A ++ c0 :: μ).length := by
    simp only [List.length_append, List.length_cons]; try omega
  have hgetd : (A ++ c0 :: (μ ++ "Y" :: ω)).getD (A.length + (μ.length + 1)) ("") = "Y" := by
    rw [hA2, hA2len, getD_at_len]
  have hproc : processF ((A ++ c0 :: (μ ++ "Y" :: ω)).length + 1)
      ⟨A ++ c0 :: (μ ++ "Y" :: ω), A.length, .R4⟩
      = some (some "Halt",
          ⟨A ++ c0 :: (μ ++ "Y" :: ω), A.length + (μ.length + 1), .R4⟩) :=
    processF_term _ hread hgetd
      (show rwn .R4 "Y" = some (some "Halt", some (.vd "Halt")) by rfl) (Or.inr rfl)
  exact run_term n hproc (Or.inl rfl)

/-- When the whole target has been restored to digits, `R1` walks right
over it, meets the separator `"X"` and the run loop returns the verdict
`"Copy"`. -/
theorem step_R1_X (δ : List String) (ω : List String) (n : Nat)
    (hδ : ∀ s ∈ δ, isBit s = true) :
    runF (n + 1) ⟨"Y" :: (δ ++ "X" :: ω), 0, .R1⟩
      = some ("Y" :: (δ ++ "X" :: ω), "Copy") := by
  have hm : ∀ s ∈ δ, accB .R1 s = false := by
    intro s hs
    obtain ⟨hA, hB, hX, _⟩ := bit_ne_sym (hδ s hs)
    exact accB_R1_false hA hB hX
  have hread := readR_seg .R1 (by decide) [] "Y" δ "X" ω hm (by decide)
    (("Y" :: (δ ++ "X" :: ω)).length + 1)
    (by simp only [List.length_cons, List.length_append]; omega)
  simp only [List.nil_append, List.length_nil, Nat.zero_add] at hread
  have hgetd : ("Y" :: (δ ++ "X" :: ω)).getD (δ.length + 1) ("") = "X" := by
    rw [show ("Y" :: (δ ++ "X" :: ω)) = ("Y" :: δ) ++ "X" :: ω by simp,
      show δ.length + 1 = ("Y" :: δ).length by simp, getD_at_len]
  have hproc : processF (("Y" :: (δ ++ "X" :: ω)).length + 1)
      ⟨"Y" :: (δ ++ "X" :: ω), 0, .R1⟩
      = some (some "Copy", ⟨"Y" :: (δ ++ "X" :: ω), δ.length + 1, .R1⟩) :=
    processF_term _ hread hgetd
      (show rwn .R1 "X" = some (some "Copy", some (.vd "Copy")) by rfl) (Or.inl rfl)
  exact run_term n hproc (Or.inr rfl)

theorem marker_nonbit {s : String} (h : isMarker s = true) : isBit s = false := by
  rcases marker_cases h with rfl | rfl <;> decide

theorem accB_R23_of_nonbit {a s : String} (h : isBit s = false) :
    accB (nxtOf a) s = false := by
  obtain ⟨h0, h1⟩ := nonbit_ne h
  exact accB_R23_false h0 h1

/-- The comparison loop: with the restored target prefix `t1` and the
consumed candidate prefix `c1a` behind it, the machine compares the next
`com` target markers against the next `com` candidate digits (they agree
symbol for symbol), restoring each target digit and marking each matched
candidate digit, and returns to `R1` at the head delimiter. -/
theorem cmp_loop : ∀ com t1 c1a : List String, ∀ trest pre crest : List String,
    (∀ s ∈ com, isBit s = true) → (∀ s ∈ t1, isBit s = true) →
    (∀ s ∈ trest, isBit s = true) →
    (∀ s ∈ pre, s = "X" ∨ isMarker s = true) →
    (∀ s ∈ c1a, isMarker s = true) →
    Reach ⟨"Y" :: (t1 ++ (markAll (com ++ trest) ++ "X" :: (pre ++ (c1a ++ (com ++ crest))))), 0, .R1⟩
          ⟨"Y" :: ((t1 ++ com) ++ (markAll trest ++ "X" :: (pre ++ ((c1a ++ markAll com) ++ crest)))), 0, .R1⟩ := by
  intro com
  induction com with
  | nil =>
    intro t1 c1a trest pre crest _ _ _ _ _
    have he : (⟨"Y" :: (t1 ++ (markAll ([] ++ trest) ++ "X" :: (pre ++ (c1a ++ ([] ++ crest))))), 0, .R1⟩ : Cfg)
        = ⟨"Y" :: ((t1 ++ []) ++ (markAll trest ++ "X" :: (pre ++ ((c1a ++ markAll []) ++ crest)))), 0, .R1⟩ := by
      apply cfg_eq _ rfl
      simp [markAll]
    rw [he]
    exact reach_refl _
  | cons d com' ih =>
    intro t1 c1a trest pre crest hcom ht1 htrest hpre hc1a
    have hd : isBit d = true := hcom d (by simp)
    have hcom' : ∀ s ∈ com', isBit s = true := fun s hs => hcom s (by simp [hs])
    have hμ : ∀ s ∈ markAll (com' ++ trest) ++ "X" :: (pre ++ c1a),
        accB (nxtOf d) s = false := by
      intro s hs
      apply accB_R23_of_nonbit
      simp only [List.mem_append, List.mem_cons] at hs
      rcases hs with h | h | h
      · exact marker_nonbit (markAll_markers
          (fun x hx => by rcases List.mem_append.mp hx with hx' | hx'
                          · exact hcom' x hx'
                          · exact htrest x hx') s h)
      · subst h; decide
      · rcases h with h | h
        · rcases hpre s h with rfl | h'
          · decide
          · exact marker_nonbit h'
        · exact marker_nonbit (hc1a s h)
    have hρ : ∀ s ∈ t1 ++ d :: (markAll (com' ++ trest) ++ "X" :: (pre ++ c1a)),
        s ≠ "Y" := by
      intro s hs
      simp only [List.mem_append, List.mem_cons] at hs
      rcases hs with h | h | h | h
      · exact (bit_ne_sym (ht1 s h)).2.2.2
      · subst h; exact (bit_ne_sym hd).2.2.2
      · exact (marker_ne_sym (markAll_markers
          (fun x hx => by rcases List.mem_append.mp hx with hx' | hx'
                          · exact hcom' x hx'
                          · exact htrest x hx') s h)).2.2.2
      · rcases h with h | h
        · subst h; decide
        · rcases h with h' | h'
          · rcases hpre s h' with rfl | hmk
            · decide
            · exact (marker_ne_sym hmk).2.2.2
          · exact (marker_ne_sym (hc1a s h')).2.2.2
    have h1 : Reach
        ⟨"Y" :: (t1 ++ (markAll ((d :: com') ++ trest) ++ "X" :: (pre ++ (c1a ++ ((d :: com') ++ crest))))), 0, .R1⟩
        ⟨"Y" :: (t1 ++ d :: (markAll (com' ++ trest) ++ "X" :: (pre ++ (c1a ++ (d :: (com' ++ crest)))))),
         t1.length + 1, nxtOf d⟩ := by
      exact step_R1_restore t1 d
        (markAll (com' ++ trest) ++ "X" :: (pre ++ (c1a ++ (d :: (com' ++ crest))))) ht1 hd
    have h2 : Reach
        ⟨"Y" :: (t1 ++ d :: (markAll (com' ++ trest) ++ "X" :: (pre ++ (c1a ++ (d :: (com' ++ crest)))))),
         t1.length + 1, nxtOf d⟩
        ⟨"Y" :: (t1 ++ d :: (markAll (com' ++ trest) ++ "X" :: (pre ++ (c1a ++ (mark d :: (com' ++ crest)))))),
         (t1 ++ d :: (markAll (com' ++ trest) ++ "X" :: (pre ++ c1a))).length + 1, .L2⟩ := by
      convert step_R23 d t1 (markAll (com' ++ trest) ++ "X" :: (pre ++ c1a)) d
        (com' ++ crest) hd hd hμ using 1
      · apply cfg_eq _ rfl
        simp
      · rw [Cfg.mk.injEq]
        refine ⟨by simp, ?_, by simp⟩
        simp only [List.length_append, List.length_cons]
        omega
    have h3 : Reach
        ⟨"Y" :: (t1 ++ d :: (markAll (com' ++ trest) ++ "X" :: (pre ++ (c1a ++ (mark d :: (com' ++ crest)))))),
         (t1 ++ d :: (markAll (com' ++ trest) ++ "X" :: (pre ++ c1a))).length + 1, .L2⟩
        ⟨"Y" :: (t1 ++ d :: (markAll (com' ++ trest) ++ "X" :: (pre ++ (c1a ++ (mark d :: (com' ++ crest)))))),
         0, .R1⟩ := by
      convert step_L2 (t1 ++ d :: (markAll (com' ++ trest) ++ "X" :: (pre ++ c1a)))
        (mark d) (com' ++ crest) hρ using 1
      · apply cfg_eq _ rfl
        simp
      · apply cfg_eq _ rfl
        simp
    have h4 : Reach
        ⟨"Y" :: (t1 ++ d :: (markAll (com' ++ trest) ++ "X" :: (pre ++ (c1a ++ (mark d :: (com' ++ crest)))))),
         0, .R1⟩
        ⟨"Y" :: ((t1 ++ (d :: com')) ++ (markAll trest ++ "X" :: (pre ++ ((c1a ++ markAll (d :: com')) ++ crest)))),
         0, .R1⟩ := by
      convert ih (t1 ++ [d]) (c1a ++ [mark d]) trest pre crest hcom'
        (by intro s hs
            rcases List.mem_append.mp hs with h | h
            · exact ht1 s h
            · simp at h; subst h; exact hd)
        htrest hpre
        (by intro s hs
            rcases List.mem_append.mp hs with h | h
            · exact hc1a s h
            · simp at h; subst h; exact mark_marker hd)
        using 1
      · apply cfg_eq _ rfl
        simp
      · apply cfg_eq _ rfl
        simp [markAll_cons]
    exact reach_trans h1 (reach_trans h2 (reach_trans h3 h4))

/-! ### Phase 3: processing one candidate block -/

theorem segTail_cons {rem : List (List String)} (h : rem ≠ []) :
    segTail rem = "X" :: seg rem := by
  cases rem with
  | nil => exact absurd rfl h
  | cons r rest => rfl

theorem pre_nonbit {pre : List String} (hpre : ∀ s ∈ pre, s = "X" ∨ isMarker s = true) :
    ∀ s ∈ pre, isBit s = false := by
  intro s hs
  rcases hpre s hs with rfl | h
  · decide
  · exact marker_nonbit h

theorem pre_noY {pre : List String} (hpre : ∀ s ∈ pre, s = "X" ∨ isMarker s = true) :
    ∀ s ∈ pre, s ≠ "Y" := by
  intro s hs
  rcases hpre s hs with rfl | h
  · decide
  · exact (marker_ne_sym h).2.2.2

theorem head_marker {t1 : List String} {b : String} (c2 : List String)
    (ht1 : ∀ s ∈ t1, isBit s = true) (hb : isBit b = true) :
    isMarker ((markAll t1 ++ mark b :: c2).headD ("")) = true := by
  cases t1 with
  | nil => simpa using mark_marker hb
  | cons x t1' =>
    simp only [markAll_cons, List.cons_append, List.headD_cons]
    exact mark_marker (ht1 x (by simp))

/-- A candidate block with the target as initial segment: the comparison
loop consumes the whole target, `R1` then meets the separator `"X"` and
the verdict is `"Copy"`. -/
theorem block_match (T pre c : List String) (rest : List (List String))
    (hT : ∀ s ∈ T, isBit s = true)
    (hpre : ∀ s ∈ pre, s = "X" ∨ isMarker s = true)
    (hpfx : isPfxOf T c = true) :
    ∃ n t, runF n (blockCfg T pre (c :: rest)) = some (t, "Copy") := by
  obtain ⟨c2, rfl⟩ := pfx_split hpfx
  have hloop := cmp_loop T [] [] [] pre (c2 ++ (segTail rest ++ ["Y"])) hT
    (by simp) (by simp) hpre (by simp)
  have hloop' : Reach (blockCfg T pre ((T ++ c2) :: rest))
      ⟨"Y" :: (T ++ "X" :: (pre ++ (markAll T ++ (c2 ++ (segTail rest ++ ["Y"]))))), 0, .R1⟩ := by
    convert hloop using 1
    apply cfg_eq _ rfl
    simp [blockCfg, seg_cons, markAll]
  have hcopy := step_R1_X T (pre ++ (markAll T ++ (c2 ++ (segTail rest ++ ["Y"])))) 0 hT
  obtain ⟨m, hm'⟩ := reach_out hloop' ⟨1, hcopy⟩
  exact ⟨m, _, hm'⟩

/-- A candidate block whose first `|T|` symbols do not all match the
target: the comparison loop advances to the first mismatch, `R1` restores
the mismatching target digit, `R2`/`R3` marks the mismatching candidate
digit and hands over to `R4` there. -/
theorem block_fail_to_R4 (T pre c : List String) (rest : List (List String))
    (hT : ∀ s ∈ T, isBit s = true)
    (hpre : ∀ s ∈ pre, s = "X" ∨ isMarker s = true)
    (hc : ∀ s ∈ c, isBit s = true)
    (hlen : T.length ≤ c.length) (hnp : isPfxOf T c = false) :
    ∃ t1 a t2 b c2, T = t1 ++ a :: t2 ∧ c = t1 ++ b :: c2 ∧ a ≠ b ∧
      Reach (blockCfg T pre (c :: rest))
        ⟨("Y" :: t1) ++ a :: ((markAll t2 ++ "X" :: (pre ++ markAll t1))
            ++ mark b :: (c2 ++ (segTail rest ++ ["Y"]))),
         t1.length + 1 + ((markAll t2 ++ "X" :: (pre ++ markAll t1)).length + 1), .R4⟩ := by
  obtain ⟨t1, a, t2, b, c2, hTd, hcd, hab⟩ := first_mismatch hnp hlen
  subst hTd
  subst hcd
  have ht1 : ∀ s ∈ t1, isBit s = true := fun s hs => hT s (by simp [hs])
  have ha : isBit a = true := hT a (by simp)
  have ht2 : ∀ s ∈ t2, isBit s = true := fun s hs => hT s (by simp [hs])
  have hb : isBit b = true := hc b (by simp)
  have hc2 : ∀ s ∈ c2, isBit s = true := fun s hs => hc s (by simp [hs])
  have hloop := cmp_loop t1 [] [] (a :: t2) pre (b :: (c2 ++ (segTail rest ++ ["Y"])))
    ht1 (by simp) (by intro s hs; rcases List.mem_cons.mp hs with rfl | h
                      · exact ha
                      · exact ht2 s h) hpre (by simp)
  have h1 : Reach (blockCfg (t1 ++ a :: t2) pre ((t1 ++ b :: c2) :: rest))
      ⟨"Y" :: (t1 ++ mark a :: (markAll t2 ++ "X" ::
          (pre ++ (markAll t1 ++ (b :: (c2 ++ (segTail rest ++ ["Y"]))))))), 0, .R1⟩ := by
    convert hloop using 1
    apply cfg_eq _ rfl
    simp [blockCfg, seg_cons, markAll_append, markAll_cons]
  have h2 := step_R1_restore t1 a
    (markAll t2 ++ "X" :: (pre ++ (markAll t1 ++ (b :: (c2 ++ (segTail rest ++ ["Y"]))))))
    ht1 ha
  have hμ : ∀ s ∈ markAll t2 ++ "X" :: (pre ++ markAll t1),
      accB (nxtOf a) s = false := by
    intro s hs
    apply accB_R23_of_nonbit
    simp only [List.mem_append, List.mem_cons] at hs
    rcases hs with h | h | h
    · exact marker_nonbit (markAll_markers ht2 s h)
    · subst h; decide
    · rcases h with h | h
      · exact pre_nonbit hpre s h
      · exact marker_nonbit (markAll_markers ht1 s h)
  have h3 : Reach
      ⟨"Y" :: (t1 ++ a :: (markAll t2 ++ "X" ::
          (pre ++ (markAll t1 ++ (b :: (c2 ++ (segTail rest ++ ["Y"]))))))),
       t1.length + 1, nxtOf a⟩
      ⟨("Y" :: t1) ++ a :: ((markAll t2 ++ "X" :: (pre ++ markAll t1))
          ++ mark b :: (c2 ++ (segTail rest ++ ["Y"]))),
       t1.length + 1 + ((markAll t2 ++ "X" :: (pre ++ markAll t1)).length + 1), .R4⟩ := by
    convert step_R23 a t1 (markAll t2 ++ "X" :: (pre ++ markAll t1)) b
      (c2 ++ (segTail rest ++ ["Y"])) ha hb hμ using 1
    · apply cfg_eq _ rfl
      simp
    · rw [Cfg.mk.injEq]
      exact ⟨rfl, rfl, by rw [if_neg (Ne.symm hab)]⟩
  exact ⟨t1, a, t2, b, c2, rfl, rfl, hab, reach_trans h1 (reach_trans h2 h3)⟩

/-- A failed candidate block followed by at least one more block: `R4`
walks to the next separator, `L1` sweeps everything left of it back to
markers, and the machine is ready for the next block. -/
theorem block_fail_next (T pre c : List String) (rem : List (List String))
    (hrem : rem ≠ [])
    (hT : ∀ s ∈ T, isBit s = true)
    (hpre : ∀ s ∈ pre, s = "X" ∨ isMarker s = true)
    (hc : ∀ s ∈ c, isBit s = true)
    (hlen : T.length ≤ c.length) (hnp : isPfxOf T c = false) :
    Reach (blockCfg T pre (c :: rem)) (blockCfg T (pre ++ (markAll c ++ ["X"])) rem) := by
  obtain ⟨t1, a, t2, b, c2, hTd, hcd, hab, hreach⟩ :=
    block_fail_to_R4 T pre c rem hT hpre hc hlen hnp
  subst hTd
  subst hcd
  have ht1 : ∀ s ∈ t1, isBit s = true := fun s hs => hT s (by simp [hs])
  have ha : isBit a = true := hT a (by simp)
  have ht2 : ∀ s ∈ t2, isBit s = true := fun s hs => hT s (by simp [hs])
  have hb : isBit b = true := hc b (by simp)
  have hc2 : ∀ s ∈ c2, isBit s = true := fun s hs => hc s (by simp [hs])
  have hμ4 : ∀ s ∈ c2, accB .R4 s = false := by
    intro s hs
    obtain ⟨_, _, hX, hY⟩ := bit_ne_sym (hc2 s hs)
    exact accB_R4_false hX hY
  have h4 : Reach
      ⟨("Y" :: t1) ++ a :: ((markAll t2 ++ "X" :: (pre ++ markAll t1))
          ++ mark b :: (c2 ++ (segTail rem ++ ["Y"]))),
       t1.length + 1 + ((markAll t2 ++ "X" :: (pre ++ markAll t1)).length + 1), .R4⟩
      ⟨(("Y" :: t1) ++ a :: (markAll t2 ++ "X" :: (pre ++ markAll t1)))
          ++ mark b :: (c2 ++ "X" :: (seg rem ++ ["Y"])),
       (("Y" :: t1) ++ a :: (markAll t2 ++ "X" :: (pre ++ markAll t1))).length
          + (c2.length + 1), .L1⟩ := by
    convert step_R4_X (("Y" :: t1) ++ a :: (markAll t2 ++ "X" :: (pre ++ markAll t1)))
      (mark b) c2 (seg rem ++ ["Y"]) hμ4 using 1
    rw [Cfg.mk.injEq]
    refine ⟨?_, ?_, rfl⟩
    · simp [segTail_cons hrem]
    · simp only [List.length_append, List.length_cons]
      try omega
  have hYbig : ∀ s ∈ t1 ++ a :: (markAll t2 ++ "X" :: (pre ++ (markAll t1 ++ mark b :: c2))),
      s ≠ "Y" := by
    intro s hs
    simp only [List.mem_append, List.mem_cons] at hs
    rcases hs with h | h | h | h
    · exact (bit_ne_sym (ht1 s h)).2.2.2
    · subst h; exact (bit_ne_sym ha).2.2.2
    · exact (marker_ne_sym (markAll_markers ht2 s h)).2.2.2
    · rcases h with h | h
      · subst h; decide
      · rcases h with h | h
        · exact pre_noY hpre s h
        · rcases h with h | h | h
          · exact (marker_ne_sym (markAll_markers ht1 s h)).2.2.2
          · subst h; exact (marker_ne_sym (mark_marker hb)).2.2.2
          · exact (bit_ne_sym (hc2 s h)).2.2.2
  have h5 : Reach
      ⟨(("Y" :: t1) ++ a :: (markAll t2 ++ "X" :: (pre ++ markAll t1)))
          ++ mark b :: (c2 ++ "X" :: (seg rem ++ ["Y"])),
       (("Y" :: t1) ++ a :: (markAll t2 ++ "X" :: (pre ++ markAll t1))).length
          + (c2.length + 1), .L1⟩
      ⟨"Y" :: (markAll (t1 ++ a :: (markAll t2 ++ "X" :: (pre ++ (markAll t1 ++ mark b :: c2))))
          ++ "X" :: (seg rem ++ ["Y"])), 0, .R1⟩ := by
    convert sweep_aux
      (digitCount (t1 ++ a :: (markAll t2 ++ "X" :: (pre ++ (markAll t1 ++ mark b :: c2)))))
      (t1 ++ a :: (markAll t2 ++ "X" :: (pre ++ (markAll t1 ++ mark b :: c2))))
      "X" (seg rem ++ ["Y"]) le_rfl hYbig using 1
    rw [Cfg.mk.injEq]
    refine ⟨?_, ?_, rfl⟩
    · simp
    · simp only [List.length_append, List.length_cons, markAll_length]
      omega
  have hpreM : markAll pre = pre :=
    markAll_of_nonbit pre (pre_nonbit hpre)
  have hfin :
      ("Y" :: (markAll (t1 ++ a :: (markAll t2 ++ "X" :: (pre ++ (markAll t1 ++ mark b :: c2))))
          ++ "X" :: (seg rem ++ ["Y"])) : List String)
      = "Y" :: (markAll (t1 ++ a :: t2) ++ "X" ::
          ((pre ++ (markAll (t1 ++ b :: c2) ++ ["X"])) ++ (seg rem ++ ["Y"]))) := by
    simp [markAll_append, markAll_cons, markAll_idem, mark_idem, hpreM, mark_X]
  have h5' := h5
  rw [hfin] at h5'
  exact reach_trans hreach (reach_trans h4 h5')

/-- A failed last candidate block: `R4` walks to the closing delimiter
and the verdict is `"Halt"`; the final tape keeps the partially restored
target and the marked scanned prefix of the block. -/
theorem block_fail_halt (T pre c : List String)
    (hT : ∀ s ∈ T, isBit s = true)
    (hpre : ∀ s ∈ pre, s = "X" ∨ isMarker s = true)
    (hc : ∀ s ∈ c, isBit s = true)
    (hlen : T.length ≤ c.length) (hnp : isPfxOf T c = false) :
    ∃ n t' c', runF n (blockCfg T pre [c])
        = some ("Y" :: (t' ++ "X" :: (pre ++ (c' ++ ["Y"]))), "Halt")
      ∧ t'.length = T.length ∧ c'.length = c.length
      ∧ isMarker (c'.headD ("")) = true := by
  obtain ⟨t1, a, t2, b, c2, hTd, hcd, hab, hreach⟩ :=
    block_fail_to_R4 T pre c [] hT hpre hc hlen hnp
  subst hTd
  subst hcd
  have ht1 : ∀ s ∈ t1, isBit s = true := fun s hs => hT s (by simp [hs])
  have hb : isBit b = true := hc b (by simp)
  have hc2 : ∀ s ∈ c2, isBit s = true := fun s hs => hc s (by simp [hs])
  have hμ4 : ∀ s ∈ c2, accB .R4 s = false := by
    intro s hs
    obtain ⟨_, _, hX, hY⟩ := bit_ne_sym (hc2 s hs)
    exact accB_R4_false hX hY
  have hcfg :
      (⟨("Y" :: t1) ++ a :: ((markAll t2 ++ "X" :: (pre ++ markAll t1))
          ++ mark b :: (c2 ++ (segTail [] ++ ["Y"]))),
        t1.length + 1 + ((markAll t2 ++ "X" :: (pre ++ markAll t1)).length + 1), .R4⟩ : Cfg)
      = ⟨(("Y" :: t1) ++ a :: (markAll t2 ++ "X" :: (pre ++ markAll t1)))
            ++ mark b :: (c2 ++ "Y" :: []),
         (("Y" :: t1) ++ a :: (markAll t2 ++ "X" :: (pre ++ markAll t1))).length, .R4⟩ := by
    rw [Cfg.mk.injEq]
    refine ⟨?_, ?_, rfl⟩
    · simp [segTail]
    · simp only [List.length_append, List.length_cons]
      try omega
  rw [hcfg] at hreach
  have hterm := step_R4_Y (("Y" :: t1) ++ a :: (markAll t2 ++ "X" :: (pre ++ markAll t1)))
    (mark b) c2 [] 0 hμ4
  obtain ⟨n, hn⟩ := reach_out hreach ⟨1, hterm⟩
  have htape :
      ((("Y" :: t1) ++ a :: (markAll t2 ++ "X" :: (pre ++ markAll t1)))
          ++ mark b :: (c2 ++ "Y" :: []) : List String)
      = "Y" :: ((t1 ++ a :: markAll t2) ++ "X" ::
          (pre ++ ((markAll t1 ++ mark b :: c2) ++ ["Y"]))) := by
    simp
  rw [htape] at hn
  refine ⟨n, t1 ++ a :: markAll t2, markAll t1 ++ mark b :: c2, hn, ?_, ?_, ?_⟩
  · simp [markAll_length]
  · simp [markAll_length]
  · exact head_marker c2 ht1 hb

/-! ### Phase 4: the engine over the list of candidate blocks -/

theorem head_marker_markAll (x : List String) (hx : ∀ s ∈ x, isBit s = true)
    (hne : x ≠ []) : isMarker ((markAll x).headD ("")) = true := by
  cases x with
  | nil => exact absurd rfl hne
  | cons s x' =>
    simp only [markAll_cons, List.headD_cons]
    exact mark_marker (hx s (by simp))

/-- If some block among the remaining ones, all earlier ones failing,
carries the target as initial segment, the machine ends with `"Copy"`. -/
theorem engine_copy (T : List String) (hT : ∀ s ∈ T, isBit s = true) :
    ∀ bad : List (List String), ∀ pre c : List String, ∀ rest : List (List String),
    (∀ x ∈ bad, (∀ s ∈ x, isBit s = true) ∧ T.length ≤ x.length ∧ isPfxOf T x = false) →
    (∀ s ∈ pre, s = "X" ∨ isMarker s = true) →
    isPfxOf T c = true →
    ∃ n t, runF n (blockCfg T pre (bad ++ c :: rest)) = some (t, "Copy") := by
  intro bad
  induction bad with
  | nil =>
    intro pre c rest _ hpre hpfx
    exact block_match T pre c rest hT hpre hpfx
  | cons x bad' ih =>
    intro pre c rest hbad hpre hpfx
    have hx := hbad x (by simp)
    have hnext := block_fail_next T pre x (bad' ++ c :: rest) (by simp) hT hpre
      hx.1 hx.2.1 hx.2.2
    have hpre2 : ∀ s ∈ pre ++ (markAll x ++ ["X"]), s = "X" ∨ isMarker s = true := by
      intro s hs
      rcases List.mem_append.mp hs with h | h
      · exact hpre s h
      · rcases List.mem_append.mp h with h' | h'
        · exact Or.inr (markAll_markers hx.1 s h')
        · simp at h'; exact Or.inl h'
    obtain ⟨n, t, hn⟩ := ih (pre ++ (markAll x ++ ["X"])) c rest
      (fun y hy => hbad y (by simp [hy])) hpre2 hpfx
    obtain ⟨m, hm⟩ := reach_out hnext ⟨n, hn⟩
    exact ⟨m, t, hm⟩

/-- If every remaining block is long enough and none carries the target
as initial segment, the machine ends with `"Halt"`, the tape keeping the
same block layout with every block's first symbol marked. -/
theorem engine_halt (T : List String) (hT : ∀ s ∈ T, isBit s = true)
    (hTne : T ≠ []) :
    ∀ rem : List (List String), ∀ pre : List String, rem ≠ [] →
    (∀ x ∈ rem, (∀ s ∈ x, isBit s = true) ∧ T.length ≤ x.length ∧ isPfxOf T x = false) →
    (∀ s ∈ pre, s = "X" ∨ isMarker s = true) →
    ∃ n t' rem', runF n (blockCfg T pre rem)
        = some ("Y" :: (t' ++ "X" :: (pre ++ (seg rem' ++ ["Y"]))), "Halt")
      ∧ t'.length = T.length
      ∧ List.Forall₂ (fun x x' => x'.length = x.length ∧ isMarker (x'.headD ("")) = true)
          rem rem' := by
  intro rem
  induction rem with
  | nil => intro pre h; exact absurd rfl h
  | cons x rem' ihr =>
    intro pre _ hrem hpre
    have hx := hrem x (by simp)
    by_cases hre : rem' = []
    · subst hre
      obtain ⟨n, t', c', hn, hlt, hlc, hhd⟩ :=
        block_fail_halt T pre x hT hpre hx.1 hx.2.1 hx.2.2
      exact ⟨n, t', [c'], hn, hlt, List.Forall₂.cons ⟨hlc, hhd⟩ List.Forall₂.nil⟩
    · have hnext := block_fail_next T pre x rem' hre hT hpre hx.1 hx.2.1 hx.2.2
      have hpre2 : ∀ s ∈ pre ++ (markAll x ++ ["X"]), s = "X" ∨ isMarker s = true := by
        intro s hs
        rcases List.mem_append.mp hs with h | h
        · exact hpre s h
        · rcases List.mem_append.mp h with h' | h'
          · exact Or.inr (markAll_markers hx.1 s h')
          · simp at h'; exact Or.inl h'
      obtain ⟨n, t', rem'', hn, hlt, hfa⟩ := ihr (pre ++ (markAll x ++ ["X"])) hre
        (fun y hy => hrem y (by simp [hy])) hpre2
      have hne'' : rem'' ≠ [] := by
        intro h
        subst h
        have := hfa.length_eq
        simp at this
        exact hre this
      have hxne : x ≠ [] := by
        intro h
        subst h
        have h2 := hx.2.1
        simp only [List.length_nil, Nat.le_zero] at h2
        exact hTne (List.length_eq_zero.mp h2)
      have htape : ("Y" :: (t' ++ "X" ::
            ((pre ++ (markAll x ++ ["X"])) ++ (seg rem'' ++ ["Y"]))) : List String)
          = "Y" :: (t' ++ "X" :: (pre ++ (seg (markAll x :: rem'') ++ ["Y"]))) := by
        rw [seg_cons, segTail_cons hne'']
        simp
      rw [htape] at hn
      obtain ⟨m, hm⟩ := reach_out hnext ⟨n, hn⟩
      exact ⟨m, t', markAll x :: rem'', hm, hlt,
        List.Forall₂.cons ⟨markAll_length x, head_marker_markAll x hx.1 hxne⟩ hfa⟩

/-! ### Entry: from the freshly constructed Locator to the first block -/

theorem indexOf_first (l r : List String) (h : ∀ s ∈ l, s ≠ "X") :
    (l ++ "X" :: r).indexOf ("X") = l.length := by
  induction l with
  | nil => simp [List.indexOf_cons]
  | cons a l ih =>
    have ha : (a == "X") = false := by
      simpa using h a (by simp)
    simp only [List.cons_append, List.indexOf_cons, ha, List.length_cons]
    rw [ih (fun s hs => h s (by simp [hs]))]
    rfl

theorem tape_idx (T : List String) (C : List (List String))
    (hT : ∀ s ∈ T, isBit s = true) :
    (tapeTC T C).indexOf ("X") = T.length + 1 := by
  have hre : tapeTC T C = ("Y" :: T) ++ "X" :: (seg C ++ ["Y"]) := by
    simp [tapeTC]
  rw [hre, indexOf_first]
  · simp
  · intro s hs
    rcases List.mem_cons.mp hs with rfl | h
    · decide
    · exact (bit_ne_sym (hT s h)).2.2.1

theorem start_entry (T : List String) (C : List (List String))
    (hT : ∀ s ∈ T, isBit s = true) :
    Reach (startCfg (tapeTC T C)) (blockCfg T [] C) := by
  have hcfg : startCfg (tapeTC T C)
      = ⟨"Y" :: (T ++ "X" :: (seg C ++ ["Y"])), T.length + 1, .L1⟩ := by
    unfold startCfg
    rw [tape_idx T C hT]
    rfl
  rw [hcfg]
  have hswp := sweep_aux (digitCount T) T "X" (seg C ++ ["Y"]) le_rfl
    (fun s hs => (bit_ne_sym (hT s hs)).2.2.2)
  exact hswp

theorem find_first_pfx (T : List String) (C : List (List String)) :
    (∀ c ∈ C, isPfxOf T c = false) ∨
    ∃ bad c rest, C = bad ++ c :: rest ∧ (∀ b ∈ bad, isPfxOf T b = false)
      ∧ isPfxOf T c = true := by
  induction C with
  | nil => exact Or.inl (by simp)
  | cons x C' ih =>
    cases hx : isPfxOf T x with
    | true => exact Or.inr ⟨[], x, C', rfl, by simp, hx⟩
    | false =>
      rcases ih with h | ⟨bad, c, rest, rfl, hb, hc⟩
      · refine Or.inl ?_
        intro c hc
        rcases List.mem_cons.mp hc with rfl | h'
        · exact hx
        · exact h c h'
      · refine Or.inr ⟨x :: bad, c, rest, rfl, ?_, hc⟩
        intro b hb'
        rcases List.mem_cons.mp hb' with rfl | h'
        · exact hx
        · exact hb b h'

/-! ### The validator on well-formed tapes -/

theorem splitX_ne_nil (l : List String) : splitX l ≠ [] := by
  induction l with
  | nil => simp [splitX]
  | cons a rest ih =>
    rw [splitX]
    cases h : splitX rest with
    | nil => simp
    | cons u us =>
      by_cases ha : a = "X" <;> simp [ha]

theorem splitX_noX (l : List String) (h : ∀ s ∈ l, s ≠ "X") : splitX l = [l] := by
  induction l with
  | nil => rfl
  | cons a rest ih =>
    rw [splitX, ih (fun s hs => h s (by simp [hs]))]
    simp [h a (by simp)]

theorem splitX_append (l r : List String) (h : ∀ s ∈ l, s ≠ "X") :
    splitX (l ++ "X" :: r) = l :: splitX r := by
  induction l with
  | nil =>
    rw [List.nil_append, splitX]
    cases hr : splitX r with
    | nil => exact absurd hr (splitX_ne_nil r)
    | cons u us => simp [← hr]
  | cons a rest ih =>
    rw [List.cons_append, splitX, ih (fun s hs => h s (by simp [hs]))]
    simp [h a (by simp)]

theorem dropWhile_beqY_bits (T : List String) (hT : ∀ s ∈ T, isBit s = true) :
    List.dropWhile (fun s => s == "Y") T = T := by
  cases T with
  | nil => rfl
  | cons t ts =>
    rw [List.dropWhile_cons]
    have hb : (t == "Y") = false := by
      simpa using (bit_ne_sym (hT t (by simp))).2.2.2
    simp [hb]

theorem stripY_Y_bits (T : List String) (hT : ∀ s ∈ T, isBit s = true) :
    stripY ("Y" :: T) = T := by
  unfold stripY
  have h1 : List.dropWhile (fun s => s == "Y") ("Y" :: T) = T := by
    rw [List.dropWhile_cons]
    simp only [beq_self_eq_true, if_true]
    exact dropWhile_beqY_bits T hT
  rw [h1]
  have h2 : List.dropWhile (fun s => s == "Y") T.reverse = T.reverse := by
    cases hrev : T.reverse with
    | nil => rfl
    | cons t ts =>
      have ht : t ∈ T := by
        rw [← List.mem_reverse, hrev]
        simp
      rw [List.dropWhile_cons]
      have hb : (t == "Y") = false := by
        simpa using (bit_ne_sym (hT t ht)).2.2.2
      simp [hb]
  rw [h2, List.reverse_reverse]

theorem getLastD_concat' (l : List String) (a : String) :
    ∀ d, (l ++ [a]).getLastD d = a := by
  induction l with
  | nil => intro d; rfl
  | cons x xs ih =>
    intro d
    rw [List.cons_append, List.getLastD_cons]
    exact ih x

/-- Every well-formed tape (per the §6 input contract) passes the code's
validator. -/
theorem validate_wf (T : List String) (C : List (List String)) (h : wfT T C) :
    validateString (tapeTC T C) = true := by
  obtain ⟨hT, hTne, hCne, hCb, hlen⟩ := h
  have hXfree : ∀ s ∈ ("Y" :: T), s ≠ "X" := by
    intro s hs
    rcases List.mem_cons.mp hs with rfl | h'
    · decide
    · exact (bit_ne_sym (hT s h')).2.2.1
  have hre : tapeTC T C = ("Y" :: T) ++ "X" :: (seg C ++ ["Y"]) := by
    simp [tapeTC]
  have hunits : splitX (tapeTC T C) = ("Y" :: T) :: splitX (seg C ++ ["Y"]) := by
    rw [hre, splitX_append _ _ hXfree]
  have hlast : (tapeTC T C).getLastD ("") = "Y" := by
    have : tapeTC T C = ("Y" :: (T ++ "X" :: seg C)) ++ ["Y"] := by
      simp [tapeTC]
    rw [this, getLastD_concat']
  have htarget : stripY ((splitX (tapeTC T C)).headD []) = T := by
    rw [hunits]
    exact stripY_Y_bits T hT
  have hsecond : T.length < ((splitX (tapeTC T C)).getD 1 []).length := by
    rw [hunits]
    cases C with
    | nil => exact absurd rfl hCne
    | cons c1 C' =>
      cases C' with
      | nil =>
        have hc1 : splitX (seg [c1] ++ ["Y"]) = [c1 ++ ["Y"]] := by
          apply splitX_noX
          intro s hs
          rcases List.mem_append.mp hs with h' | h'
          · exact (bit_ne_sym ((hCb c1 (by simp)).1 s h')).2.2.1
          · simp at h'; subst h'; decide
        rw [seg_one] at hc1
        rw [show seg [c1] = c1 from seg_one c1, hc1]
        simp only [List.getD_cons_succ, List.getD_cons_zero, List.length_append,
          List.length_cons, List.length_nil]
        simp at hlen
        omega
      | cons c2 C'' =>
        have hseg : seg (c1 :: c2 :: C'') ++ ["Y"]
            = c1 ++ "X" :: (seg (c2 :: C'') ++ ["Y"]) := by
          rw [seg_cons, segTail_cons (by simp)]
          simp
        rw [hseg, splitX_append c1 _
          (fun s hs => (bit_ne_sym ((hCb c1 (by simp)).1 s hs)).2.2.1)]
        simp only [List.getD_cons_succ, List.getD_cons_zero]
        simpa using hlen
  have hTlen : 0 < T.length := by
    cases T with
    | nil => exact absurd rfl hTne
    | cons _ _ => simp
  have hhead : (tapeTC T C).headD ("") = "Y" := rfl
  have hlen2 : 1 < (splitX (tapeTC T C)).length := by
    rw [hunits]
    cases h : splitX (seg C ++ ["Y"]) with
    | nil => exact absurd h (splitX_ne_nil _)
    | cons u us => simp [h]
  rw [validateString]
  simp only [hhead, hlast, htarget, beq_self_eq_true, Bool.and_self, Bool.true_and]
  simp [hlen2, hsecond, hTlen, List.isEmpty_iff, hTne]
  rwa [List.getD_eq_getElem _ _ hlen2] at hsecond

/-! ### Divergence on a short later candidate -/

theorem readF_right_stuck (st : StName) (hd : dirL st = false)
    (tape : List String) (hlen : 0 < tape.length) :
    ∀ p, (∀ q, min (p + 1) (tape.length - 1) ≤ q → q ≤ tape.length - 1 →
        accB st (tape.getD q ("")) = false) →
    ∀ f, readF f st tape p = none := by
  intro p h f
  induction f generalizing p with
  | zero => rfl
  | succ g ih =>
    rw [readF]
    have hp' : shift st tape.length p = min (p + 1) (tape.length - 1) := by
      rw [shift_right st hd, Nat.min_def]
      split_ifs <;> omega
    rw [hp', h _ le_rfl (by omega)]
    simp only [Bool.false_eq_true, if_false]
    exact ih _ (fun q hq1 hq2 => h q (by omega) hq2)

theorem reach_step' (c : Cfg) (v : String) (c' : Cfg)
    (h : processF (c.tape.length + 1) c = some (some v, c'))
    (h1 : v ≠ "Halt") (h2 : v ≠ "Copy") : Reach c c' :=
  reach_step h (Or.inr ⟨v, rfl, h1, h2⟩)

theorem reach_step_none (c c' : Cfg)
    (h : processF (c.tape.length + 1) c = some (none, c')) : Reach c c' :=
  reach_step h (Or.inl rfl)

/-- On `"Y10X111X1Y"` — a §6-well-formed tape whose second candidate is
shorter than the target — the run enters `R2` at position 2 of
`"Y10XBBBXBY"` with no digit anywhere to the right, and the read loop
clamps at the final `"Y"` forever. -/
theorem stuck_run_YX : ∀ n, runF n (startCfg (mkTape ("Y10X111X1Y"))) = none := by
  have hstuck : ∀ f, readF f .R2 (mkTape ("Y10XBBBXBY")) 2 = none := by
    apply readF_right_stuck .R2 (by decide) _ (by decide)
    intro q h1 h2
    have e1 : (mkTape ("Y10XBBBXBY")).length = 10 := by decide
    rw [e1] at h1 h2
    norm_num at h1
    interval_cases q <;> decide
  have hnone : ∀ n, runF n ⟨mkTape ("Y10XBBBXBY"), 2, .R2⟩ = none := by
    intro n
    cases n with
    | zero => rfl
    | succ m =>
      rw [runF]
      have hp : processF ((mkTape ("Y10XBBBXBY")).length + 1)
          ⟨mkTape ("Y10XBBBXBY"), 2, .R2⟩ = none := by
        unfold processF
        rw [hstuck _]
      rw [hp]
  have hreach : Reach (startCfg (mkTape ("Y10X111X1Y")))
      ⟨mkTape ("Y10XBBBXBY"), 2, .R2⟩ := by
    refine reach_trans (reach_step' _ "A"
        ⟨mkTape ("Y1AX111X1Y"), 2, .L1⟩ (by decide) (by decide) (by decide)) ?_
    refine reach_trans (reach_step' _ "B"
        ⟨mkTape ("YBAX111X1Y"), 1, .L1⟩ (by decide) (by decide) (by decide)) ?_
    refine reach_trans (reach_step_none _
        ⟨mkTape ("YBAX111X1Y"), 0, .R1⟩ (by decide)) ?_
    refine reach_trans (reach_step' _ "1"
        ⟨mkTape ("Y1AX111X1Y"), 1, .R3⟩ (by decide) (by decide) (by decide)) ?_
    refine reach_trans (reach_step' _ "B"
        ⟨mkTape ("Y1AXB11X1Y"), 4, .L2⟩ (by decide) (by decide) (by decide)) ?_
    refine reach_trans (reach_step_none _
        ⟨mkTape ("Y1AXB11X1Y"), 0, .R1⟩ (by decide)) ?_
    refine reach_trans (reach_step' _ "0"
        ⟨mkTape ("Y10XB11X1Y"), 2, .R2⟩ (by decide) (by decide) (by decide)) ?_
    refine reach_trans (reach_step' _ "B"
        ⟨mkTape ("Y10XBB1X1Y"), 5, .R4⟩ (by decide) (by decide) (by decide)) ?_
    refine reach_trans (reach_step_none _
        ⟨mkTape ("Y10XBB1X1Y"), 7, .L1⟩ (by decide)) ?_
    refine reach_trans (reach_step' _ "B"
        ⟨mkTape ("Y10XBBBX1Y"), 6, .L1⟩ (by decide) (by decide) (by decide)) ?_
    refine reach_trans (reach_step' _ "A"
        ⟨mkTape ("Y1AXBBBX1Y"), 2, .L1⟩ (by decide) (by decide) (by decide)) ?_
    refine reach_trans (reach_step' _ "B"
        ⟨mkTape ("YBAXBBBX1Y"), 1, .L1⟩ (by decide) (by decide) (by decide)) ?_
    refine reach_trans (reach_step_none _
        ⟨mkTape ("YBAXBBBX1Y"), 0, .R1⟩ (by decide)) ?_
    refine reach_trans (reach_step' _ "1"
        ⟨mkTape ("Y1AXBBBX1Y"), 1, .R3⟩ (by decide) (by decide) (by decide)) ?_
    refine reach_trans (reach_step' _ "B"
        ⟨mkTape ("Y1AXBBBXBY"), 8, .L2⟩ (by decide) (by decide) (by decide)) ?_
    refine reach_trans (reach_step_none _
        ⟨mkTape ("Y1AXBBBXBY"), 0, .R1⟩ (by decide)) ?_
    exact reach_step' _ "0" ⟨mkTape ("Y10XBBBXBY"), 2, .R2⟩ (by decide) (by decide) (by decide)
  exact reach_none hreach hnone

/-! ### Claims C1, C2, C3 -/

/-- C1: for every tape satisfying the §6 input contract whose target
equals the first candidate symbol for symbol up to the target's length,
the machine (validation, then `Locator.start`) accepts the tape and the
run loop terminates with the verdict `"Copy"`. -/
theorem C1_copy_on_matching_first_candidate
    (T : List String) (C : List (List String))
    (hwf : wfT T C) (hpfx : isPfxOf T (C.headD []) = true) :
    validateString (tapeTC T C) = true ∧
    ∃ n t, runF n (startCfg (tapeTC T C)) = some (t, "Copy") := by
  obtain ⟨hT, hTne, hCne, hCb, hlen⟩ := hwf
  refine ⟨validate_wf T C ⟨hT, hTne, hCne, hCb, hlen⟩, ?_⟩
  cases C with
  | nil => exact absurd rfl hCne
  | cons c1 C' =>
    have hstart := start_entry T (c1 :: C') hT
    obtain ⟨n, t, hn⟩ := engine_copy T hT [] [] c1 C' (by simp) (by simp)
      (by simpa using hpfx)
    obtain ⟨m, hm⟩ := reach_out hstart ⟨n, hn⟩
    exact ⟨m, t, hm⟩

/-- C1, witness: the contract tape `"Y1X10Y"` (target `1`, single
candidate `10` with matching first symbol) is accepted and yields
`"Copy"`. -/
theorem C1_copy_on_matching_first_candidate_witness :
    wfT ["1"] [["1", "0"]] ∧
    isPfxOf ["1"] (([["1", "0"]] : List (List String)).headD []) = true ∧
    (validateString (tapeTC ["1"] [["1", "0"]]) = true ∧
     ∃ n t, runF n (startCfg (tapeTC ["1"] [["1", "0"]])) = some (t, "Copy")) :=
  ⟨by decide, by decide,
    C1_copy_on_matching_first_candidate ["1"] [["1", "0"]] (by decide) (by decide)⟩

/-- C2 as amended: for every §6 tape in which every candidate block is at
least as long as the target and none carries the target as its initial
segment, the machine accepts the tape and the run loop terminates with
`"Halt"`, the final tape keeping the same block layout with every block's
first symbol rewritten to a marker (every block was scanned). -/
theorem C2_halt_when_no_candidate_matches
    (T : List String) (C : List (List String))
    (hwf : wfT T C)
    (hlenall : ∀ c ∈ C, T.length ≤ c.length)
    (hnm : ∀ c ∈ C, isPfxOf T c = false) :
    validateString (tapeTC T C) = true ∧
    ∃ n t' C', runF n (startCfg (tapeTC T C))
        = some ("Y" :: (t' ++ "X" :: (seg C' ++ ["Y"])), "Halt")
      ∧ t'.length = T.length
      ∧ List.Forall₂ (fun c c' => c'.length = c.length ∧ isMarker (c'.headD ("")) = true)
          C C' := by
  obtain ⟨hT, hTne, hCne, hCb, hlen⟩ := hwf
  refine ⟨validate_wf T C ⟨hT, hTne, hCne, hCb, hlen⟩, ?_⟩
  have hstart := start_entry T C hT
  obtain ⟨n, t', C', hn, hlt, hfa⟩ := engine_halt T hT hTne C [] hCne
    (fun x hx => ⟨(hCb x hx).1, hlenall x hx, hnm x hx⟩) (by simp)
  obtain ⟨m, hm⟩ := reach_out hstart ⟨n, hn⟩
  exact ⟨m, t', C', hm, hlt, hfa⟩

/-- C2, witness: on `"Y1X00Y"` (target `1`, single candidate `00`,
mismatch at the first symbol) the run halts with the block scanned. -/
theorem C2_halt_when_no_candidate_matches_witness :
    ∃ n t' C', runF n (startCfg (tapeTC ["1"] [["0", "0"]]))
        = some ("Y" :: (t' ++ "X" :: (seg C' ++ ["Y"])), "Halt")
      ∧ t'.length = (["1"] : List String).length
      ∧ List.Forall₂ (fun c c' => c'.length = c.length ∧ isMarker (c'.headD ("")) = true)
          [["0", "0"]] C' :=
  (C2_halt_when_no_candidate_matches ["1"] [["0", "0"]]
    (by decide) (by decide) (by decide)).2

/-- C2, counterexample to the unamended claim: `"Y10X111X1Y"` satisfies
the §6 contract and no candidate matches the target, yet the run never
returns `"Halt"` (it never returns at all: the second candidate is
shorter than the target and the read loop of `R2` clamps at the closing
delimiter forever). -/
theorem C2_unamended_counterexample :
    wfT ["1", "0"] [["1", "1", "1"], ["1"]] ∧
    (∀ c ∈ [["1", "1", "1"], ["1"]], isPfxOf ["1", "0"] c = false) ∧
    tapeTC ["1", "0"] [["1", "1", "1"], ["1"]] = mkTape ("Y10X111X1Y") ∧
    ¬ ∃ n t, runF n (startCfg (mkTape ("Y10X111X1Y"))) = some (t, "Halt") := by
  refine ⟨by decide, by decide, by decide, ?_⟩
  rintro ⟨n, t, hn⟩
  rw [stuck_run_YX n] at hn
  cases hn

/-- C3 as amended: for every §6 tape in which every candidate block is at
least as long as the target, the inner read loops always find an
accepted symbol and the run loop terminates with one of the two
verdicts. -/
theorem C3_termination_when_blocks_long_enough
    (T : List String) (C : List (List String))
    (hwf : wfT T C)
    (hlenall : ∀ c ∈ C, T.length ≤ c.length) :
    validateString (tapeTC T C) = true ∧
    ∃ n t v, runF n (startCfg (tapeTC T C)) = some (t, v)
      ∧ (v = "Copy" ∨ v = "Halt") := by
  obtain ⟨hT, hTne, hCne, hCb, hlen⟩ := hwf
  refine ⟨validate_wf T C ⟨hT, hTne, hCne, hCb, hlen⟩, ?_⟩
  have hstart := start_entry T C hT
  rcases find_first_pfx T C with hall | ⟨bad, c, rest, rfl, hb, hc⟩
  · obtain ⟨n, t', C', hn, _, _⟩ := engine_halt T hT hTne C [] hCne
      (fun x hx => ⟨(hCb x hx).1, hlenall x hx, hall x hx⟩) (by simp)
    obtain ⟨m, hm⟩ := reach_out hstart ⟨n, hn⟩
    exact ⟨m, _, "Halt", hm, Or.inr rfl⟩
  · obtain ⟨n, t, hn⟩ := engine_copy T hT bad [] c rest
      (fun x hx => ⟨(hCb x (by simp [hx])).1, hlenall x (by simp [hx]), hb x hx⟩)
      (by simp) hc
    obtain ⟨m, hm⟩ := reach_out hstart ⟨n, hn⟩
    exact ⟨m, t, "Copy", hm, Or.inl rfl⟩

/-- C3, witness: on `"Y1X01Y"` every block is long enough and the run
terminates with a verdict. -/
theorem C3_termination_when_blocks_long_enough_witness :
    ∃ n t v, runF n (startCfg (tapeTC ["1"] [["0", "1"]])) = some (t, v)
      ∧ (v = "Copy" ∨ v = "Halt") :=
  (C3_termination_when_blocks_long_enough ["1"] [["0", "1"]] (by decide) (by decide)).2

/-- C3, counterexample to the unamended claim: `"Y10X111X1Y"` satisfies
the §6 contract, yet the run loop never terminates — no fuel makes
`runF` return. -/
theorem C3_unamended_counterexample :
    wfT ["1", "0"] [["1", "1", "1"], ["1"]] ∧
    tapeTC ["1", "0"] [["1", "1", "1"], ["1"]] = mkTape ("Y10X111X1Y") ∧
    ¬ ∃ n r, runF n (startCfg (mkTape ("Y10X111X1Y"))) = some r := by
  refine ⟨by decide, by decide, ?_⟩
  rintro ⟨n, r, hn⟩
  rw [stuck_run_YX n] at hn
  cases hn

/-! ### Claim C4 -/

/-- C4: the class docstring (and spec scenario A) declare
`"Y101X101111"` a valid input with result `("Y101XBAB111", "Copy")`, but
`_validate_string` rejects it — its last character is `'1'`, not `'Y'` —
so construction raises and `start` is never reached; the transition
engine itself, run from the documented start configuration, does produce
exactly the documented result. -/
theorem C4_documented_example_rejected_but_engine_copies :
    validateString (mkTape ("Y101X101111")) = false ∧
    locRun 20 ("Y101X101111") = none ∧
    runF 20 (startCfg (mkTape ("Y101X101111")))
      = some (mkTape ("Y101XBAB111"), "Copy") ∧
    joinAll (mkTape ("Y101XBAB111")) = "Y101XBAB111" := by
  refine ⟨by decide, by decide, by decide, by decide⟩

/-! ### Claim C5: the validator, characterized -/

theorem first_X_split {cs : List String} (h : ("X" : String) ∈ cs) :
    ∃ l r, cs = l ++ "X" :: r ∧ ∀ s ∈ l, s ≠ "X" := by
  induction cs with
  | nil => cases h
  | cons a rest ih =>
    by_cases ha : a = "X"
    · subst ha
      exact ⟨[], rest, rfl, by simp⟩
    · have h' : ("X" : String) ∈ rest := by
        rcases List.mem_cons.mp h with h'' | h''
        · exact absurd h''.symm ha
        · exact h''
      obtain ⟨l, r, rfl, hl⟩ := ih h'
      refine ⟨a :: l, r, rfl, ?_⟩
      intro s hs
      rcases List.mem_cons.mp hs with rfl | hs'
      · exact ha
      · exact hl s hs'

theorem takeWhile_noX (l r : List String) (h : ∀ s ∈ l, s ≠ "X") :
    (l ++ "X" :: r).takeWhile (fun s => s != "X") = l := by
  induction l with
  | nil => simp [List.takeWhile_cons]
  | cons a rest ih =>
    rw [List.cons_append, List.takeWhile_cons]
    have ha : (a != "X") = true := by
      simpa using h a (by simp)
    rw [ha]
    simp only [if_true]
    rw [ih (fun s hs => h s (by simp [hs]))]

theorem dropWhile_noX (l r : List String) (h : ∀ s ∈ l, s ≠ "X") :
    (l ++ "X" :: r).dropWhile (fun s => s != "X") = "X" :: r := by
  induction l with
  | nil => simp [List.dropWhile_cons]
  | cons a rest ih =>
    rw [List.cons_append, List.dropWhile_cons]
    have ha : (a != "X") = true := by
      simpa using h a (by simp)
    rw [ha]
    simp only [if_true]
    exact ih (fun s hs => h s (by simp [hs]))

theorem splitX_head_takeWhile (r : List String) :
    (splitX r).headD [] = r.takeWhile (fun s => s != "X") := by
  induction r with
  | nil => rfl
  | cons a rest ih =>
    rw [splitX, List.takeWhile_cons]
    cases hr : splitX rest with
    | nil => exact absurd hr (splitX_ne_nil rest)
    | cons u us =>
      by_cases ha : a = "X"
      · subst ha
        simp
      · have ha' : (a != "X") = true := by simpa using ha
        simp only [if_neg ha, ha', if_true, List.headD_cons]
        rw [← ih, hr]
        rfl

theorem getD0_headD (l : List (List String)) (d : List String) :
    l.getD 0 d = l.headD d := by
  cases l <;> rfl

theorem bool_target_eq (t : List String) (q : Bool) :
    (!t.isEmpty && (decide (0 < t.length) && q)) = (!t.isEmpty && q) := by
  cases t <;> simp

theorem contains_false_of_not_mem {l : List String} (h : ("X" : String) ∉ l) :
    l.contains ("X") = false := by
  cases h' : l.contains ("X") with
  | false => rfl
  | true => exact absurd (List.mem_of_elem_eq_true h') h

/-- The code's validator accepts exactly the inputs described by
`contractOK`: `Y` delimiters at both ends, an `X`, a non-empty stripped
target segment strictly shorter than the chunk between the first `X` and
the next `X` or the end of the string. -/
theorem validator_eq_contract (cs : List String) :
    validateString cs = contractOK cs := by
  by_cases hX : ("X" : String) ∈ cs
  · obtain ⟨l, r, rfl, hl⟩ := first_X_split hX
    have h1 : splitX (l ++ "X" :: r) = l :: splitX r := splitX_append l r hl
    have h2 : (l ++ "X" :: r).takeWhile (fun s => s != "X") = l := takeWhile_noX l r hl
    have h3 : (l ++ "X" :: r).dropWhile (fun s => s != "X") = "X" :: r := dropWhile_noX l r hl
    have hcont : (l ++ "X" :: r).contains ("X") = true :=
      List.elem_eq_true_of_mem (by simp)
    have hlen2 : (1 < (splitX (l ++ "X" :: r)).length) := by
      rw [h1]
      cases hr : splitX r with
      | nil => exact absurd hr (splitX_ne_nil r)
      | cons u us => simp [hr]
    rw [validateString, contractOK]
    rw [h1, h2, h3, hcont]
    simp only [List.headD_cons, List.getD_cons_succ, List.drop_succ_cons,
      List.drop_zero, decide_eq_true_eq]
    simp only [getD0_headD, splitX_head_takeWhile]
    rw [show (decide (1 < (l :: splitX r).length)) = true by
      simpa [h1] using hlen2]
    simp only [Bool.true_and, Bool.and_true]
    rw [bool_target_eq]
  · have hl : ∀ s ∈ cs, s ≠ "X" := fun s hs he => hX (he ▸ hs)
    have h1 : splitX cs = [cs] := splitX_noX cs hl
    have hcont : cs.contains ("X") = false := contains_false_of_not_mem hX
    rw [validateString, contractOK]
    rw [h1, hcont]
    simp

/-- C5 as amended: construction raises exactly when the input violates
the contract as the code actually checks it — `contractOK` — and in
particular each of the six listed strings is rejected.  (The original
claim's reading of the first candidate segment — "between the last `X`
and the closing `Y`" — differs from the code, which measures up to the
next `X` or the end of the string, keeping a closing `Y`.) -/
theorem C5_validator_characterized :
    (∀ cs, validateString cs = contractOK cs) ∧
    validateString (mkTape ("Y")) = false ∧
    validateString (mkTape ("YY")) = false ∧
    validateString (mkTape ("Y11X1")) = false ∧
    validateString (mkTape ("Y11X11")) = false ∧
    validateString (mkTape ("YX11")) = false ∧
    validateString (mkTape ("YX11Y")) = false :=
  ⟨validator_eq_contract, by decide, by decide, by decide, by decide, by decide, by decide⟩

/-- C5, counterexample to the claim as stated: `"Y11X00Y"` violates the
claim's contract (its target `11` is not strictly shorter than its
candidate segment `00`), yet the code accepts it — the code compares
against `units[1] = "00Y"`, which keeps the closing `Y`. -/
theorem C5_counterexample :
    origContract (mkTape ("Y11X00Y")) = false ∧
    validateString (mkTape ("Y11X00Y")) = true := by
  refine ⟨by decide, by decide⟩

theorem rwn_write_one (st : StName) (sym v : String) (nx : Option NxtV)
    (h : rwn st sym = some (some v, nx)) (h1 : v ≠ "Copy") (h2 : v ≠ "Halt") :
    v.length = 1 := by
  cases st <;> simp only [rwn] at h <;> split_ifs at h <;>
    simp only [Option.some.injEq, Prod.mk.injEq] at h <;>
    first
      | (obtain ⟨h', -⟩ := h; subst h'
         first
           | decide
           | exact absurd rfl h1
           | exact absurd rfl h2)
      | simp_all

/-! ### Claim C6: the cursor stays in bounds -/

theorem shift_lt (st : StName) (len p : Nat) (h0 : 0 < len) (hp : p < len) :
    shift st len p < len := by
  by_cases hd : dirL st = true
  · rw [shift_left st hd]; omega
  · rw [shift_right st (eq_false_of_ne_true hd)]
    split_ifs <;> omega

theorem readF_bound : ∀ (f : Nat) (st : StName) (tape : List String) (p q : Nat),
    readF f st tape p = some q → p < tape.length → q < tape.length := by
  intro f
  induction f with
  | zero => intro st tape p q h _; cases h
  | succ g ih =>
    intro st tape p q h hp
    rw [readF] at h
    have hs : shift st tape.length p < tape.length := shift_lt st _ p (by omega) hp
    cases hb : accB st (tape.getD (shift st tape.length p) ("")) with
    | true =>
      rw [hb] at h
      simp only [if_true] at h
      cases h
      exact hs
    | false =>
      rw [hb] at h
      simp only [Bool.false_eq_true, if_false] at h
      exact ih st tape _ q h hs

theorem processF_len (rf : Nat) (c : Cfg) (w : Option String) (c' : Cfg)
    (h : processF rf c = some (w, c')) :
    ∃ q, readF rf c.st c.tape c.p = some q ∧ c'.p = q ∧
      c'.tape.length = c.tape.length ∧
      ((∀ x ∈ c.tape, x.length = 1) → ∀ x ∈ c'.tape, x.length = 1) := by
  unfold processF at h
  cases hr : readF rf c.st c.tape c.p with
  | none => rw [hr] at h; cases h
  | some q =>
    rw [hr] at h
    dsimp only at h
    cases hw : rwn c.st (c.tape.getD q ("")) with
    | none => rw [hw] at h; cases h
    | some p0 =>
      obtain ⟨w0, nx⟩ := p0
      rw [hw] at h
      dsimp only at h
      simp only [Option.some.injEq, Prod.mk.injEq] at h
      obtain ⟨rfl, rfl⟩ := h
      refine ⟨q, rfl, rfl, ?_, ?_⟩
      · cases w0 with
        | none => rfl
        | some v =>
          dsimp only
          split_ifs
          · rfl
          · exact List.length_set c.tape q v
      · intro hall x hx
        cases w0 with
        | none => exact hall x hx
        | some v =>
          dsimp only at hx
          split_ifs at hx with hvv
          · exact hall x hx
          · rcases List.mem_or_eq_of_mem_set hx with h' | he
            · exact hall x h'
            · subst he
              have h1 : x ≠ "Copy" := fun he' => hvv (Or.inl he')
              have h2 : x ≠ "Halt" := fun he' => hvv (Or.inr he')
              exact rwn_write_one c.st (c.tape.getD q ("")) x nx hw h1 h2

theorem processF_bounds (rf : Nat) (c : Cfg) (w : Option String) (c' : Cfg)
    (h : processF rf c = some (w, c')) (hp : c.p < c.tape.length) :
    c'.p < c'.tape.length ∧ c'.tape.length = c.tape.length := by
  obtain ⟨q, hr, hq, hl, _⟩ := processF_len rf c w c' h
  rw [hl, hq]
  exact ⟨readF_bound rf c.st c.tape c.p q hr hp, rfl⟩

theorem validate_memX {cs : List String} (hv : validateString cs = true) :
    ("X" : String) ∈ cs := by
  by_contra h
  have h1 : splitX cs = [cs] := splitX_noX cs (fun s hs he => h (he ▸ hs))
  rw [validateString, h1] at hv
  simp at hv

/-- C6: after construction from a validated input the cursor is inside
the tape; one shift keeps it inside; a successful read leaves it inside;
a `process` call keeps it inside and never changes the tape length, so
every tape access is in bounds. -/
theorem C6_cursor_stays_in_bounds :
    (∀ st : StName, ∀ len p : Nat, 0 < len → p < len → shift st len p < len) ∧
    (∀ f : Nat, ∀ st : StName, ∀ tape : List String, ∀ p q : Nat,
        readF f st tape p = some q → p < tape.length → q < tape.length) ∧
    (∀ rf : Nat, ∀ c : Cfg, ∀ w : Option String, ∀ c' : Cfg,
        processF rf c = some (w, c') → c.p < c.tape.length →
        c'.p < c'.tape.length ∧ c'.tape.length = c.tape.length) ∧
    (∀ s : String, validateString (mkTape s) = true →
        (startCfg (mkTape s)).p < (startCfg (mkTape s)).tape.length) :=
  ⟨shift_lt, readF_bound, processF_bounds,
    fun _ hv => List.indexOf_lt_length.mpr (validate_memX hv)⟩

/-- C6, witness: concrete instances of the four parts. -/
theorem C6_cursor_stays_in_bounds_witness :
    shift .R1 5 4 < 5 ∧
    (1 : Nat) < (mkTape ("Y0X")).length ∧
    ((⟨mkTape ("YAX"), 1, .L1⟩ : Cfg).p < (⟨mkTape ("YAX"), 1, .L1⟩ : Cfg).tape.length ∧
      (⟨mkTape ("YAX"), 1, .L1⟩ : Cfg).tape.length
        = (⟨mkTape ("Y0X"), 2, .L1⟩ : Cfg).tape.length) ∧
    (startCfg (mkTape ("Y1X10Y"))).p < (startCfg (mkTape ("Y1X10Y"))).tape.length :=
  ⟨C6_cursor_stays_in_bounds.1 .R1 5 4 (by decide) (by decide),
   C6_cursor_stays_in_bounds.2.1 3 .L1 (mkTape ("Y0X")) 2 1 (by decide) (by decide),
   C6_cursor_stays_in_bounds.2.2.1 4 ⟨mkTape ("Y0X"), 2, .L1⟩ (some "A")
     ⟨mkTape ("YAX"), 1, .L1⟩ (by decide) (by decide),
   C6_cursor_stays_in_bounds.2.2.2 ("Y1X10Y") (by decide)⟩

/-! ### Claim C7: what `read` inspects and returns -/

theorem accB_empty (st : StName) : accB st ("") = false := by
  cases st <;> decide

theorem readF_nil : ∀ (f : Nat) (st : StName) (p : Nat),
    readF f st ([] : List String) p = none := by
  intro f
  induction f with
  | zero => intro st p; rfl
  | succ g ih =>
    intro st p
    rw [readF]
    rw [show (([] : List String)).getD (shift st ([] : List String).length p) ("") = ""
      from rfl]
    rw [accB_empty]
    simp only [Bool.false_eq_true, if_false]
    exact ih st _

/-- C7 as amended: a successful `read` returns a position holding a
symbol accepted by the state's table; the cursor is moved before every
test, so for a left state the returned position is at most `p - 1` and
for a right state at least `min (p+1) (len-1)` — at a clamped boundary
the move is a no-op, and there (and only there) the symbol under the
cursor on entry can itself be tested and returned; within the scanned
stretch it is the first accepted symbol. -/
theorem C7_read_shifts_before_first_test :
    ∀ (f : Nat) (st : StName) (t : List String) (p q : Nat),
    readF f st t p = some q →
    accB st (t.getD q ("")) = true ∧
    (dirL st = true → q ≤ p - 1 ∧
        ∀ r, q < r → r ≤ p - 1 → accB st (t.getD r ("")) = false) ∧
    (dirL st = false → min (p + 1) (t.length - 1) ≤ q ∧ q ≤ t.length - 1 ∧
        ∀ r, min (p + 1) (t.length - 1) ≤ r → r < q → accB st (t.getD r ("")) = false) := by
  intro f
  induction f with
  | zero => intro st t p q h; cases h
  | succ g ih =>
    intro st t p q h
    cases t with
    | nil => rw [readF_nil] at h; cases h
    | cons x ts =>
    have hL : 0 < (x :: ts).length := by simp
    rw [readF] at h
    by_cases hd : dirL st = true
    · rw [shift_left st hd] at h
      cases hb : accB st ((x :: ts).getD (p - 1) ("")) with
      | true =>
        rw [hb] at h
        simp only [if_true, Option.some.injEq] at h
        subst h
        refine ⟨hb, ?_, ?_⟩
        · intro _
          exact ⟨le_rfl, fun r hr1 hr2 => by omega⟩
        · intro h'
          rw [hd] at h'
          cases h'
      | false =>
        rw [hb] at h
        simp only [Bool.false_eq_true, if_false] at h
        obtain ⟨hacc, hLft, _⟩ := ih st (x :: ts) (p - 1) q h
        refine ⟨hacc, ?_, ?_⟩
        · intro _
          obtain ⟨hq, hfst⟩ := hLft hd
          refine ⟨by omega, fun r hr1 hr2 => ?_⟩
          rcases Nat.lt_or_ge r (p - 1) with h' | h'
          · exact hfst r hr1 (by omega)
          · have he : r = p - 1 := by omega
            rw [he]
            exact hb
        · intro h'
          rw [hd] at h'
          cases h'
    · have hd' : dirL st = false := eq_false_of_ne_true hd
      rw [shift_right st hd'] at h
      have hmin : (if p + 1 < (x :: ts).length then p + 1 else (x :: ts).length - 1)
          = min (p + 1) ((x :: ts).length - 1) := by
        rw [Nat.min_def]
        split_ifs <;> omega
      rw [hmin] at h
      cases hb : accB st ((x :: ts).getD (min (p + 1) ((x :: ts).length - 1)) ("")) with
      | true =>
        rw [hb] at h
        simp only [if_true, Option.some.injEq] at h
        subst h
        refine ⟨hb, ?_, ?_⟩
        · intro h'
          rw [hd'] at h'
          cases h'
        · intro _
          exact ⟨le_rfl, Nat.min_le_right _ _, fun r hr1 hr2 => by omega⟩
      | false =>
        rw [hb] at h
        simp only [Bool.false_eq_true, if_false] at h
        obtain ⟨hacc, _, hRgt⟩ := ih st (x :: ts) (min (p + 1) ((x :: ts).length - 1)) q h
        refine ⟨hacc, ?_, ?_⟩
        · intro h'
          rw [hd'] at h'
          cases h'
        · intro _
          obtain ⟨hq1, hq2, hfst⟩ := hRgt hd'
          have hle : min (p + 1) ((x :: ts).length - 1) ≤ q := by omega
          refine ⟨hle, hq2, fun r hr1 hr2 => ?_⟩
          rcases Nat.lt_or_ge r (min (p + 1) ((x :: ts).length - 1) + 1) with h' | h'
          · have he : r = min (p + 1) ((x :: ts).length - 1) := by omega
            rw [he]
            exact hb
          · exact hfst r (by omega) hr2

/-- C7, counterexample to the "entry symbol is never itself tested"
reading: for `L2` at the clamped left boundary of `["Y", "0"]`, the shift
is a no-op and `read` tests — and accepts — the symbol under the cursor
on entry, returning the entry position itself. -/
theorem C7_entry_symbol_tested_at_boundary :
    ¬ (∀ (st : StName) (t : List String) (p f q : Nat),
        readF f st t p = some q → q ≠ p) := by
  intro h
  exact h .L2 ["Y", "0"] 0 2 0 (by decide) rfl

/-- C7, witness: `L1` from position 2 of `"Y0X"` moves first and accepts
the `"0"` at position 1. -/
theorem C7_read_shifts_before_first_test_witness :
    accB .L1 ((mkTape ("Y0X")).getD 1 ("")) = true ∧
    (dirL .L1 = true → (1 : Nat) ≤ 2 - 1 ∧
        ∀ r, 1 < r → r ≤ 2 - 1 → accB .L1 ((mkTape ("Y0X")).getD r ("")) = false) ∧
    (dirL .L1 = false → min (2 + 1) ((mkTape ("Y0X")).length - 1) ≤ 1 ∧
        (1 : Nat) ≤ (mkTape ("Y0X")).length - 1 ∧
        ∀ r, min (2 + 1) ((mkTape ("Y0X")).length - 1) ≤ r → r < 1 →
          accB .L1 ((mkTape ("Y0X")).getD r ("")) = false) :=
  C7_read_shifts_before_first_test 5 .L1 (mkTape ("Y0X")) 2 1 (by decide)

/-! ### Claim C8: a single move, with clamping -/

/-- C8: one move sets the cursor to `p - 1` for a left state (`Nat`
subtraction: moving left from 0 stays at 0) and to `p + 1` for a right
state, clamped to `len - 1`; repeating the move at either boundary keeps
the cursor fixed there; `shift` is total, so no error is raised at the
boundaries. -/
theorem C8_shift_moves_and_clamps :
    ∀ (st : StName) (len p : Nat),
    (dirL st = true → shift st len p = p - 1 ∧ shift st len 0 = 0 ∧
        shift st len (shift st len 0) = 0) ∧
    (dirL st = false →
        (p + 1 < len → shift st len p = p + 1) ∧
        (1 ≤ len → shift st len (len - 1) = len - 1 ∧
          shift st len (shift st len (len - 1)) = len - 1)) := by
  intro st len p
  constructor
  · intro hd
    rw [shift_left st hd, shift_left st hd, shift_left st hd]
    exact ⟨rfl, rfl, rfl⟩
  · intro hd
    refine ⟨fun h => by rw [shift_right st hd, if_pos h], fun hlen => ?_⟩
    have h1 : shift st len (len - 1) = len - 1 := by
      rw [shift_right st hd]
      rw [if_neg (by omega)]
    exact ⟨h1, by rw [h1, h1]⟩

/-- C8, witness: concrete moves of `L2` and `R2` on a tape of length 7,
including both boundaries. -/
theorem C8_shift_moves_and_clamps_witness :
    shift .L2 7 3 = 2 ∧ shift .L2 7 0 = 0 ∧ shift .R2 7 3 = 4 ∧ shift .R2 7 6 = 6 :=
  ⟨((C8_shift_moves_and_clamps .L2 7 3).1 (by decide)).1,
   ((C8_shift_moves_and_clamps .L2 7 0).1 (by decide)).2.1,
   ((C8_shift_moves_and_clamps .R2 7 3).2 (by decide)).1 (by decide),
   (((C8_shift_moves_and_clamps .R2 7 0).2 (by decide)).2 (by decide)).1⟩

/-! ### Claim C9: runs never change the tape length -/

theorem runF_len (n : Nat) :
    ∀ (c : Cfg) (tl : List String) (v : String),
    runF n c = some (tl, v) → (∀ x ∈ c.tape, x.length = 1) →
    tl.length = c.tape.length ∧ ∀ x ∈ tl, x.length = 1 := by
  induction n with
  | zero => intro c tl v h _; cases h
  | succ m ih =>
    intro c tl v h hall
    rw [runF] at h
    cases hp : processF (c.tape.length + 1) c with
    | none => rw [hp] at h; cases h
    | some wc =>
      obtain ⟨w, c'⟩ := wc
      rw [hp] at h
      obtain ⟨q, _, _, hlen, hone⟩ := processF_len (c.tape.length + 1) c w c' hp
      cases w with
      | none =>
        obtain ⟨h1, h2⟩ := ih c' tl v h (hone hall)
        exact ⟨by rw [h1, hlen], h2⟩
      | some v0 =>
        dsimp only at h
        by_cases hv : v0 = "Halt" ∨ v0 = "Copy"
        · rw [if_pos hv] at h
          simp only [Option.some.injEq, Prod.mk.injEq] at h
          obtain ⟨rfl, -⟩ := h
          exact ⟨hlen, hone hall⟩
        · rw [if_neg hv] at h
          obtain ⟨h1, h2⟩ := ih c' tl v h (hone hall)
          exact ⟨by rw [h1, hlen], h2⟩

theorem joinAll_length (l : List String) (h : ∀ x ∈ l, x.length = 1) :
    (joinAll l).length = l.length := by
  suffices H : ∀ acc : String, ((l.foldl (· ++ ·) acc).length = acc.length + l.length) by
    rw [show joinAll l = l.foldl (· ++ ·) "" from rfl, H ""]
    simp
  induction l with
  | nil => intro acc; simp
  | cons x xs ih =>
    intro acc
    rw [List.foldl_cons]
    rw [ih (fun y hy => h y (by simp [hy]))]
    rw [String.length_append, h x (by simp)]
    simp only [List.length_cons]
    omega

theorem mkTape_length (s : String) : (mkTape s).length = s.length := by
  rw [show mkTape s = s.data.map Char.toString from rfl, List.length_map]
  rfl

theorem mkTape_one (s : String) : ∀ x ∈ mkTape s, x.length = 1 := by
  intro x hx
  obtain ⟨c, _, rfl⟩ := List.mem_map.mp hx
  rfl

/-- C9: every terminating run from a validated input returns a tape
string of exactly the input's length — `process` only overwrites single
symbols in place. -/
theorem C9_run_preserves_length (s : String) (fuel : Nat) (t v : String)
    (h : locRun fuel s = some (t, v)) : t.length = s.length := by
  unfold locRun at h
  cases hv : validateString (mkTape s) with
  | false => rw [hv] at h; simp at h
  | true =>
    rw [hv] at h
    simp only [if_true] at h
    cases hr : runF fuel (startCfg (mkTape s)) with
    | none => rw [hr] at h; cases h
    | some r =>
      obtain ⟨tl, v0⟩ := r
      rw [hr] at h
      simp only [Option.map_some', Option.some.injEq, Prod.mk.injEq] at h
      obtain ⟨rfl, rfl⟩ := h
      obtain ⟨hlen, hone⟩ := runF_len fuel (startCfg (mkTape s)) tl v0 hr (mkTape_one s)
      rw [joinAll_length tl hone, hlen]
      exact mkTape_length s

/-- C9, witness: a complete accepted run whose output string has the
input's length. -/
theorem C9_run_preserves_length_witness :
    locRun 10 ("Y1X10Y") = some ("Y1XB0Y", "Copy") ∧
    ("Y1XB0Y" : String).length = ("Y1X10Y" : String).length :=
  ⟨by decide, C9_run_preserves_length ("Y1X10Y") 10 "Y1XB0Y" "Copy" (by decide)⟩

/-! ### Claim C10: where the cursor starts -/

theorem getD_lt_indexOf (l : List String) :
    ∀ i, i < l.indexOf ("X") → l.getD i ("") ≠ "X" := by
  induction l with
  | nil =>
    intro i h
    rw [List.indexOf_nil] at h
    omega
  | cons b l ih =>
    intro i h
    rw [List.indexOf_cons] at h
    cases hb : (b == "X") with
    | true => rw [hb] at h; simp at h
    | false =>
      rw [hb] at h
      simp only [cond_false] at h
      cases i with
      | zero =>
        intro he
        rw [List.getD_cons_zero] at he
        subst he
        simp at hb
      | succ j =>
        rw [List.getD_cons_succ]
        exact ih j (by omega)

theorem validate_idx_ge2 {cs : List String} (hv : validateString cs = true) :
    2 ≤ cs.indexOf ("X") := by
  obtain ⟨l, r, rfl, hl⟩ := first_X_split (validate_memX hv)
  rw [indexOf_first l r hl]
  rw [validateString, splitX_append l r hl] at hv
  simp only [List.headD_cons, Bool.and_eq_true, beq_iff_eq, decide_eq_true_eq,
    Bool.not_eq_true', List.isEmpty_eq_false] at hv
  obtain ⟨⟨hhead, _⟩, ⟨_, hne⟩, _⟩ := hv
  cases l with
  | nil => simp at hhead
  | cons x l' =>
    cases l' with
    | nil =>
      have hx : x = "Y" := by simpa using hhead
      subst hx
      exact absurd (show stripY ["Y"] = [] by decide) hne
    | cons y l'' => simp

/-- C10: for every validated input the cursor starts at the index of the
first `"X"` (which is at least 2, in particular not 0), the state starts
at `L1`, and the first shift of `L1` — performed before any inspection —
puts the cursor on the symbol immediately to the left of that `"X"`,
which is therefore the first symbol the machine inspects. -/
theorem C10_start_cursor_at_first_X (s : String)
    (hv : validateString (mkTape s) = true) :
    (startCfg (mkTape s)).st = .L1 ∧
    (startCfg (mkTape s)).p = (mkTape s).indexOf ("X") ∧
    (mkTape s).getD ((mkTape s).indexOf ("X")) ("") = "X" ∧
    (∀ i, i < (mkTape s).indexOf ("X") → (mkTape s).getD i ("") ≠ "X") ∧
    2 ≤ (mkTape s).indexOf ("X") ∧
    shift .L1 (mkTape s).length ((mkTape s).indexOf ("X"))
      = (mkTape s).indexOf ("X") - 1 ∧
    (∀ f, readF (f + 1) .L1 (mkTape s) ((mkTape s).indexOf ("X"))
        = if accB .L1 ((mkTape s).getD ((mkTape s).indexOf ("X") - 1) (""))
          then some ((mkTape s).indexOf ("X") - 1)
          else readF f .L1 (mkTape s) ((mkTape s).indexOf ("X") - 1)) := by
  have hmem := validate_memX hv
  have hlt := List.indexOf_lt_length.mpr hmem
  refine ⟨rfl, rfl, ?_, getD_lt_indexOf _, validate_idx_ge2 hv,
    shift_left .L1 rfl _ _, ?_⟩
  · rw [List.getD_eq_getElem _ _ hlt]
    exact List.getElem_indexOf hlt
  · intro f
    rw [readF, shift_left .L1 rfl]

/-- C10, witness: on the validated input `"Y1X10Y"` the cursor starts on
the `"X"` at index 2 and the first inspected symbol is at index 1. -/
theorem C10_start_cursor_at_first_X_witness :
    validateString (mkTape ("Y1X10Y")) = true ∧
    ((startCfg (mkTape ("Y1X10Y"))).st = .L1 ∧
     (startCfg (mkTape ("Y1X10Y"))).p = (mkTape ("Y1X10Y")).indexOf ("X") ∧
     (mkTape ("Y1X10Y")).getD ((mkTape ("Y1X10Y")).indexOf ("X")) ("") = "X" ∧
     (∀ i, i < (mkTape ("Y1X10Y")).indexOf ("X") →
        (mkTape ("Y1X10Y")).getD i ("") ≠ "X") ∧
     2 ≤ (mkTape ("Y1X10Y")).indexOf ("X") ∧
     shift .L1 (mkTape ("Y1X10Y")).length ((mkTape ("Y1X10Y")).indexOf ("X"))
       = (mkTape ("Y1X10Y")).indexOf ("X") - 1 ∧
     (∀ f, readF (f + 1) .L1 (mkTape ("Y1X10Y")) ((mkTape ("Y1X10Y")).indexOf ("X"))
        = if accB .L1 ((mkTape ("Y1X10Y")).getD ((mkTape ("Y1X10Y")).indexOf ("X") - 1) (""))
          then some ((mkTape ("Y1X10Y")).indexOf ("X") - 1)
          else readF f .L1 (mkTape ("Y1X10Y")) ((mkTape ("Y1X10Y")).indexOf ("X") - 1))) :=
  ⟨by decide, C10_start_cursor_at_first_X ("Y1X10Y") (by decide)⟩

